import Mathlib

/-!
Verification development for the OpenAI-compatible LLM provider core of this
repository: the streaming tool-call accumulator (`handleStreamingRequest`),
the SSE line framer (`sendStreamingRequestWithFetch`), the JSON repair
utilities (`safeParseJson` / `attemptJsonRepair`), the tool-result truncation
policy (`truncateToolResult`), the error-tip classifier
(`LlmProviderError.createWithTip`) and the multimodal content mapper
(`convertContent`).

Modelling conventions:
* JavaScript strings are modelled as Lean `String` (a list of characters);
  UTF-16 code-unit subtleties and Unicode whitespace beyond the common ASCII
  whitespace characters are outside the scope of the claims.
* `JSON.parse` is modelled by an executable recursive-descent parser `parse`
  over the JSON grammar.  Numbers are kept as their source token (floating
  point value semantics are irrelevant to the claims); objects keep their
  key/value pairs in source order.
* JavaScript truthiness of optional strings ("", undefined are falsy) is
  modelled by `truthyS`.
-/

/-! ## Character classes and basic string helpers -/

/-- JavaScript whitespace (the ASCII part): space, tab, LF, CR, VT, FF.
Used by `String.prototype.trim` and the `\s` regex class. -/
def isWsJS (c : Char) : Bool :=
  c = ' ' || c = '\t' || c = '\n' || c = '\r' || c = '\x0b' || c = '\x0c'

/-- JSON insignificant whitespace per RFC 8259: space, tab, LF, CR. -/
def isJsonWs (c : Char) : Bool :=
  c = ' ' || c = '\t' || c = '\n' || c = '\r'

/-- Regex `\w` word characters: letters, digits, underscore. -/
def isWord (c : Char) : Bool :=
  ('a' ≤ c && c ≤ 'z') || ('A' ≤ c && c ≤ 'Z') || ('0' ≤ c && c ≤ '9') || c = '_'

/-- ASCII decimal digit. -/
def isDigitC (c : Char) : Bool := '0' ≤ c && c ≤ '9'

/-- The left-brace character, kept symbolic to avoid literal braces. -/
def lbrace : Char := Char.ofNat 123

/-- The right-brace character. -/
def rbrace : Char := Char.ofNat 125

/-- Drop JS whitespace from the end of a character list. -/
def dropRightWs (l : List Char) : List Char :=
  (l.reverse.dropWhile isWsJS).reverse

/-- `String.prototype.trim` on character lists. -/
def trimJS (l : List Char) : List Char :=
  dropRightWs (l.dropWhile isWsJS)

/-! ## The JSON value type and a model of `JSON.parse` -/

/-- JSON values.  Numbers carry their source token; objects keep the pairs in
source order (duplicate keys are resolved at lookup time, last key wins, as
`JSON.parse` does). -/
inductive Json where
  | null : Json
  | bool : Bool → Json
  | num : String → Json
  | str : String → Json
  | arr : List Json → Json
  | obj : List (String × Json) → Json

/-- Skip JSON whitespace. -/
def skipWs (l : List Char) : List Char := l.dropWhile isJsonWs

/-- Translate a JSON escape character to the escaped character, when simple. -/
def escChar (c : Char) : Option Char :=
  if c = '"' then some '"'
  else if c = '\\' then some '\\'
  else if c = '/' then some '/'
  else if c = 'b' then some '\x08'
  else if c = 'f' then some '\x0c'
  else if c = 'n' then some '\n'
  else if c = 'r' then some '\r'
  else if c = 't' then some '\t'
  else none

/-- Value of one hexadecimal digit, case-insensitive. -/
def hexVal (c : Char) : Option Nat :=
  let n := c.toNat
  if 48 ≤ n ∧ n ≤ 57 then some (n - 48)
  else if 97 ≤ n ∧ n ≤ 102 then some (n - 87)
  else if 65 ≤ n ∧ n ≤ 70 then some (n - 55)
  else none

/-- Parse the body of a JSON string literal (after the opening quote),
fuel-bounded.  Returns the decoded characters and the remaining input.
`\uXXXX` escapes denoting UTF-16 surrogate halves are rejected (a
simplification: the claims never exercise them). -/
def parseStrRest : Nat → List Char → Option (List Char × List Char)
  | 0, _ => none
  | Nat.succ _, [] => none
  | Nat.succ fuel, c :: r =>
    if c = '"' then some ([], r)
    else if c = '\\' then
      match r with
      | [] => none
      | e :: r2 =>
        if e = 'u' then
          match r2 with
          | h1 :: h2 :: h3 :: h4 :: r3 =>
            match hexVal h1, hexVal h2, hexVal h3, hexVal h4 with
            | some a, some b, some cc, some d =>
              let n := ((a * 16 + b) * 16 + cc) * 16 + d
              if n < 0xd800 ∨ (0xdfff < n ∧ n < 0x110000) then
                match parseStrRest fuel r3 with
                | some (s, rest) => some (Char.ofNat n :: s, rest)
                | none => none
              else none
            | _, _, _, _ => none
          | _ => none
        else
          match escChar e with
          | some ec =>
            match parseStrRest fuel r2 with
            | some (s, rest) => some (ec :: s, rest)
            | none => none
          | none => none
    else if c.toNat < 0x20 then none
    else
      match parseStrRest fuel r with
      | some (s, rest) => some (c :: s, rest)
      | none => none

/-- Parse a JSON number token starting at `l`; returns the token and rest. -/
def parseNum (l : List Char) : Option (Json × List Char) :=
  let (sgn, l1) :=
    match l with
    | '-' :: t => (['-'], t)
    | _ => (([] : List Char), l)
  let ds := l1.takeWhile isDigitC
  let l2 := l1.dropWhile isDigitC
  if ds = [] then none
  else if ds.length > 1 ∧ ds.head? = some '0' then none
  else
    let (fr, l3) :=
      match l2 with
      | '.' :: t =>
        let fs := t.takeWhile isDigitC
        if fs = [] then (none, l2) else (some ('.' :: fs), t.dropWhile isDigitC)
      | _ => (none, l2)
    match fr, l3 with
    | none, '.' :: _ => none
    | _, _ =>
      let (ex, l4) :=
        match l3 with
        | e :: t =>
          if e = 'e' ∨ e = 'E' then
            let (es, t2) :=
              match t with
              | s :: t2 => if s = '+' ∨ s = '-' then ([s], t2) else (([] : List Char), t)
              | [] => ([], t)
            let xs := t2.takeWhile isDigitC
            if xs = [] then (none, l3) else (some (e :: es ++ xs), t2.dropWhile isDigitC)
          else (none, l3)
        | [] => (none, l3)
      match ex, l4 with
      | none, e :: _ =>
        if e = 'e' ∨ e = 'E' then none
        else some (Json.num ⟨sgn ++ ds ++ (fr.getD []) ++ []⟩, l4)
      | _, _ => some (Json.num ⟨sgn ++ ds ++ (fr.getD []) ++ (ex.getD [])⟩, l4)

/-- A pending parse obligation: a value, the members of an object (with the
pairs parsed so far), or the items of an array. -/
inductive PReq where
  | value : List Char → PReq
  | members : List Char → List (String × Json) → PReq
  | items : List Char → List Json → PReq

/-- Recursive-descent JSON parser; `fuel` bounds the recursion depth and
decreases structurally at every step, so the definition reduces
definitionally.  The input of a `value` request must start at the first
character of the value (no leading whitespace). -/
def parseGo : Nat → PReq → Option (Json × List Char)
  | 0, _ => none
  | Nat.succ fuel, PReq.value l =>
    match l with
    | [] => none
    | c :: r =>
      if c = lbrace then
        match skipWs r with
        | c2 :: r2 =>
          if c2 = rbrace then some (Json.obj [], r2)
          else parseGo fuel (PReq.members (skipWs r) [])
        | [] => none
      else if c = '[' then
        match skipWs r with
        | ']' :: r2 => some (Json.arr [], r2)
        | _ => parseGo fuel (PReq.items (skipWs r) [])
      else if c = '"' then
        match parseStrRest (r.length + 1) r with
        | some (s, rest) => some (Json.str ⟨s⟩, rest)
        | none => none
      else if c = 't' then
        match r with
        | 'r' :: 'u' :: 'e' :: r2 => some (Json.bool true, r2)
        | _ => none
      else if c = 'f' then
        match r with
        | 'a' :: 'l' :: 's' :: 'e' :: r2 => some (Json.bool false, r2)
        | _ => none
      else if c = 'n' then
        match r with
        | 'u' :: 'l' :: 'l' :: r2 => some (Json.null, r2)
        | _ => none
      else if c = '-' ∨ isDigitC c then parseNum l
      else none
  | Nat.succ fuel, PReq.members l acc =>
    match l with
    | '"' :: r =>
      match parseStrRest (r.length + 1) r with
      | some (k, r1) =>
        match skipWs r1 with
        | ':' :: r3 =>
          match parseGo fuel (PReq.value (skipWs r3)) with
          | some (v, r4) =>
            match skipWs r4 with
            | ',' :: r5 => parseGo fuel (PReq.members (skipWs r5) (acc ++ [(⟨k⟩, v)]))
            | c :: r5 =>
              if c = rbrace then some (Json.obj (acc ++ [(⟨k⟩, v)]), r5) else none
            | [] => none
          | none => none
        | _ => none
      | none => none
    | _ => none
  | Nat.succ fuel, PReq.items l acc =>
    match parseGo fuel (PReq.value l) with
    | some (v, r) =>
      match skipWs r with
      | ',' :: r2 => parseGo fuel (PReq.items (skipWs r2) (acc ++ [v]))
      | ']' :: r2 => some (Json.arr (acc ++ [v]), r2)
      | _ => none
    | none => none

/-- Model of `JSON.parse`: `some v` on success, `none` when a `SyntaxError`
would be thrown. -/
def parse (s : String) : Option Json :=
  match parseGo (2 * s.data.length + 8) (PReq.value (skipWs s.data)) with
  | some (v, rest) => if skipWs rest = [] then some v else none
  | none => none

/-! ## `attemptJsonRepair` (errorHandling.ts) -/

/-- Is `c` one of the characters that may precede a bare object key in the
regex `(\x7b|\s|,)(\w+):` of `attemptJsonRepair`? -/
def isKeyPre (c : Char) : Bool := c = lbrace || isWsJS c || c = ','

/-- Length of `dropWhile` never exceeds the input length. -/
theorem lenDropWhileLe (p : Char → Bool) (l : List Char) : (l.dropWhile p).length ≤ l.length := by
  induction l with
  | nil => simp
  | cons a t ih =>
    by_cases h : p a
    · simp [List.dropWhile, h]
      omega
    · simp [List.dropWhile, h]

/-- Brace balancing step of `attemptJsonRepair`: append one `\x7d` for each
unmatched `\x7b` (counted textually over the whole string, string literals
included, exactly as the source's regex count does). -/
def balCurly (l : List Char) : List Char :=
  l ++ List.replicate (l.count lbrace - l.count rbrace) rbrace

/-- Bracket balancing step: append one `]` for each unmatched `[`. -/
def balSq (l : List Char) : List Char :=
  l ++ List.replicate (l.count '[' - l.count ']') ']'

/-- Does the input begin with optional JS whitespace followed by a closing
brace or bracket?  (The `(\s*[\x7d\]])` capture of the comma-stripping
regex.) -/
def closeAfterWs (r : List Char) : Bool :=
  match r.dropWhile isWsJS with
  | b :: _ => b = rbrace || b = ']'
  | [] => false

/-- Trailing-comma removal step: the global regex replace
`s.replace(/,(\s*[\x7d\]])/g, '$1')`.  The JavaScript engine scans left to
right and resumes after each matched region; since a captured region
(whitespace plus a closing bracket) contains no comma, no later match can
begin inside one, so the replace deletes exactly every comma that is
followed by optional whitespace and a closing brace/bracket — which is what
this structurally recursive definition does. -/
def stripCommas : List Char → List Char
  | [] => []
  | c :: rest =>
    if c = ',' && closeAfterWs rest then stripCommas rest
    else c :: stripCommas rest

/-- Does the input begin with a non-empty `\w+` run immediately followed by
`:`?  (The `(\w+):` tail of the bare-key-quoting regex.) -/
def startsWordColon (r : List Char) : Bool :=
  decide (r.takeWhile isWord ≠ []) && ((r.dropWhile isWord).head? == some ':')

/-- Scanner of the bare-key quoting replace (see `quoteKeys`).  In the
`inRun` state the scanner is inside a word run that is known to end at a
colon: it copies the run and closes the inserted quote at the colon.
Otherwise, a key-prefix character followed by a word run and a colon starts
a quoted run (emitting the prefix character and the opening quote), and any
other character is copied. -/
def qkGo : Bool → List Char → List Char
  | true, [] => []
  | true, c :: rest =>
    if c = ':' then '"' :: ':' :: qkGo false rest
    else c :: qkGo true rest
  | false, [] => []
  | false, c :: rest =>
    if isKeyPre c && startsWordColon rest then c :: '"' :: qkGo true rest
    else c :: qkGo false rest

/-- Bare-key quoting step: the global regex replace
`s.replace(/(\x7b|\s|,)(\w+):/g, '$1"$2":')`.  At a key-prefix character the
greedy `\w+` matches iff the maximal word run after it is non-empty and
immediately followed by `:` (backtracking cannot succeed otherwise, because
`:` is not a word character); scanning resumes after the matched region, and
no match can begin inside a consumed region (word characters and `:` are not
key-prefix characters), so the single-pass scanner `qkGo` is exact. -/
def quoteKeys (l : List Char) : List Char := qkGo false l

/-- `attemptJsonRepair` from errorHandling.ts: trim, balance braces, balance
brackets, strip trailing commas, quote bare keys. -/
def attemptJsonRepair (s : String) : String :=
  ⟨quoteKeys (stripCommas (balSq (balCurly (trimJS s.data))))⟩

/-- JavaScript `||` on strings: the left operand unless it is falsy (empty). -/
def strOr (s d : String) : String := if s = "" then d else s

/-- Bounded preview used in the `safeParseJson` error message. -/
def preview (s : String) : String :=
  if s.data.length > 100 then ⟨s.data.take 100⟩ ++ "..." else s

/-- `safeParseJson` from errorHandling.ts: direct parse first; on failure one
repair pass and one re-parse; on second failure a typed error carrying a
bounded preview of the input. -/
def safeParseJson (s : String) : Except String Json :=
  match parse s with
  | some v => Except.ok v
  | none =>
    match parse (attemptJsonRepair s) with
    | some v => Except.ok v
    | none =>
      Except.error ("Failed to parse JSON after repair attempts. Preview: \"" ++ preview s ++ "\"")

/-! ## Tool-result truncation (errorHandling.ts) -/

/-- `Math.ceil(n / 4)`: the token estimate used throughout the source. -/
def estTokens (n : Nat) : Nat := (n + 3) / 4

/-- The truncation annotation appended after the kept prefix, from
`truncateToolResult`. -/
def truncNote (removed : Nat) : String :=
  "\n\n[...truncated " ++ toString removed ++ " characters (~" ++
    toString (estTokens removed) ++ " tokens)]"

/-- Take the first `n` characters of a string (`String.prototype.substring(0, n)`).

The source operates on UTF-16 code units; the claims are stated per
character, which coincides on the basic multilingual plane. -/
def strTake (s : String) (n : Nat) : String := ⟨s.data.take n⟩

/-- Character length of a string. -/
def strLen (s : String) : Nat := s.data.length

/-- `truncateToolResult(result, config)` from errorHandling.ts. -/
def truncateToolResult (result : String) (charLimit tokenLimit : Nat) : String :=
  if result = "" then result
  else if strLen result ≤ charLimit ∧ estTokens (strLen result) ≤ tokenLimit then result
  else
    let maxChars := min charLimit (tokenLimit * 4)
    if strLen result ≤ maxChars then result
    else strTake result maxChars ++ truncNote (strLen result - maxChars)

/-! ## Error-tip classification (LlmProviderError.createWithTip) -/

/-- Boolean substring containment (`String.prototype.includes`). -/
def containsSub (hay needle : List Char) : Bool :=
  match hay with
  | [] => needle = []
  | _ :: t => needle.isPrefixOf hay || containsSub t needle

/-- String-level substring containment. -/
def strIncludes (hay needle : String) : Bool := containsSub hay.data needle.data

/-- Tip text for HTTP 401. -/
def tip401 : String :=
  "Check your API key. For LM Studio, ensure the server is running and any non-empty API key is set."

/-- Tip text for HTTP 404. -/
def tip404 : String :=
  "Verify the API endpoint URL and ensure the server is accessible."

/-- Tip text for HTTP 500. -/
def tip500 : String :=
  "Server error. For LM Studio, ensure a model is loaded and the server is running properly."

/-- Tip text for a model that is not loaded. -/
def tipModel : String :=
  "Ensure a model is loaded in your LLM server (e.g., LM Studio)."

/-- Tip text for a connection failure. -/
def tipConn : String :=
  "Check that your LLM server is running and accessible at the configured endpoint."

/-- The tip-selection logic of `LlmProviderError.createWithTip`, a pure
function of the HTTP status and the message. -/
def tipFor (status : Option Nat) (message : String) : Option String :=
  if status = some 401 then some tip401
  else if status = some 404 then some tip404
  else if status = some 500 then some tip500
  else if strIncludes message "model" && strIncludes message "not" then some tipModel
  else if strIncludes message "connection" || strIncludes message "ECONNREFUSED" then some tipConn
  else none

/-- The typed provider error (`LlmProviderError`). -/
structure LlmErrM where
  message : String
  status : Option Nat := none
  endpoint : Option String := none
  tip : Option String := none
deriving DecidableEq

/-- `LlmProviderError.createWithTip`. -/
def createWithTip (message : String) (status : Option Nat) (endpoint : Option String) : LlmErrM :=
  { message := message, status := status, endpoint := endpoint, tip := tipFor status message }

/-! ## The unified response model and the streaming accumulator
(OpenAICompatibleProvider.handleStreamingRequest) -/

/-- JavaScript truthiness of an optional string: `undefined` and `""` are
falsy. -/
def truthyS (o : Option String) : Bool :=
  match o with
  | some s => s ≠ ""
  | none => false

/-- The `function` part of a streamed tool-call fragment. -/
structure FnFrag where
  name : Option String := none
  arguments : Option String := none
deriving DecidableEq

/-- One entry of `delta.tool_calls` in a streaming chunk. -/
structure ToolFrag where
  index : Nat
  id : Option String := none
  fn : Option FnFrag := none
deriving DecidableEq

/-- The `delta` object of a streaming chunk's first choice. -/
structure Delta where
  content : Option String := none
  tool_calls : Option (List ToolFrag) := none
deriving DecidableEq

/-- One choice of a streaming chunk. -/
structure ChoiceS where
  delta : Option Delta := none
  finish_reason : Option String := none
deriving DecidableEq

/-- A decoded streaming chunk (`ChatCompletionChunk`). -/
structure ChunkS where
  choices : List ChoiceS := []
deriving DecidableEq

/-- The name carried by a fragment (`toolCallDelta.function?.name`). -/
def fragName (f : ToolFrag) : Option String := f.fn.bind (·.name)

/-- The argument text carried by a fragment (`toolCallDelta.function?.arguments`). -/
def fragArgs (f : ToolFrag) : Option String := f.fn.bind (·.arguments)

/-- The per-index accumulator entry (`ToolCallAccumulator`). -/
structure AccEnt where
  id : Option String := none
  name : Option String := none
  argsSrc : String := ""
deriving DecidableEq

/-- Merge one fragment into an accumulator entry: the three `if` statements
of the streaming loop.  A truthy `id` or `name` is written unconditionally
(overwriting any earlier value); truthy argument text is appended. -/
def applyFrag (a : AccEnt) (f : ToolFrag) : AccEnt :=
  let a1 := if truthyS f.id then { a with id := f.id } else a
  let a2 := if truthyS (fragName f) then { a1 with name := fragName f } else a1
  if truthyS (fragArgs f) then { a2 with argsSrc := a2.argsSrc ++ (fragArgs f).getD "" } else a2

/-- Replace the entry at the given key of an insertion-ordered association
list (the key is present). -/
def updAssoc : List (Nat × AccEnt) → Nat → ToolFrag → List (Nat × AccEnt)
  | [], _, _ => []
  | (j, a) :: t, i, f => if j = i then (j, applyFrag a f) :: t else (j, a) :: updAssoc t i f

/-- Does the map contain the key? (`Map.prototype.has`). -/
def hasKey (m : List (Nat × AccEnt)) (i : Nat) : Bool := m.any (·.1 = i)

/-- Process one tool-call fragment: create the entry at `fragment.index` if
absent (at insertion order, i.e. at the end), then merge the fragment. -/
def setFrag (m : List (Nat × AccEnt)) (f : ToolFrag) : List (Nat × AccEnt) :=
  if hasKey m f.index then updAssoc m f.index f
  else m ++ [(f.index, applyFrag { } f)]

/-- Process a list of fragments in arrival order. -/
def procFrags (m : List (Nat × AccEnt)) (fs : List ToolFrag) : List (Nat × AccEnt) :=
  fs.foldl setFrag m

/-- Streaming-accumulation state: the text buffer, the log of texts passed to
the caller's `onDelta` callback, and the tool-call accumulator map. -/
structure AccSt where
  textBuf : List String := []
  deltaLog : List String := []
  accums : List (Nat × AccEnt) := []
deriving DecidableEq

/-- Process one delta: push truthy text to the buffer and forward it to the
`onDelta` callback; merge every tool-call fragment. -/
def procDelta (st : AccSt) (d : Delta) : AccSt :=
  let st1 :=
    if truthyS d.content then
      { st with
        textBuf := st.textBuf ++ [d.content.getD ""],
        deltaLog := st.deltaLog ++ [d.content.getD ""] }
    else st
  match d.tool_calls with
  | some fs => { st1 with accums := procFrags st1.accums fs }
  | none => st1

/-- One iteration of the part_008 streaming loop: chunks without a first
choice carrying a delta are skipped (`if (!chunk.choices?.[0]?.delta) continue`). -/
def procChunk (st : AccSt) (c : ChunkS) : AccSt :=
  match c.choices.head? with
  | some ch =>
    match ch.delta with
    | some d => procDelta st d
    | none => st
  | none => st

/-- The part_008 variant of the streaming loop: consumes every chunk the
framer yields; `finish_reason` is not inspected. -/
def runStream (cs : List ChunkS) : AccSt :=
  cs.foldl procChunk { }

/-- Is the first choice's `finish_reason` truthy? (part_007 variant). -/
def isFin (c : ChunkS) : Bool :=
  match c.choices.head? with
  | some ch => truthyS ch.finish_reason
  | none => false

/-- The part_007 variant of the streaming loop: a chunk whose first choice
carries a truthy `finish_reason` is still processed, then the loop breaks. -/
def runStreamFin : AccSt → List ChunkS → AccSt
  | st, [] => st
  | st, c :: rest =>
    match c.choices.head? with
    | none => runStreamFin st rest
    | some ch =>
      let st2 :=
        match ch.delta with
        | some d => procDelta st d
        | none => st
      if truthyS ch.finish_reason then st2 else runStreamFin st2 rest

/-! ## Finalization of the streaming accumulator -/

/-- A finalized tool call (`LlmToolCall`): id, name and parsed arguments. -/
structure LlmToolCallM where
  id : String
  name : String
  arguments : Json

/-- The unified response (`LlmResponse`); the streaming path never sets
`usage`, so it is omitted here. -/
structure LlmResponseM where
  text : Option String := none
  toolCalls : Option (List LlmToolCallM) := none

/-- Insert a keyed entry into a list sorted ascending by key. -/
def insKey (p : Nat × AccEnt) : List (Nat × AccEnt) → List (Nat × AccEnt)
  | [] => [p]
  | q :: t => if p.1 ≤ q.1 then p :: q :: t else q :: insKey p t

/-- Sort an association list ascending by key: the model of
`Array.from(map.entries()).sort(([a],[b]) => a - b)` (keys are distinct, so
any correct sort yields the same list). -/
def sortByKey (l : List (Nat × AccEnt)) : List (Nat × AccEnt) :=
  l.foldr insKey []

/-- Parse an accumulated raw argument buffer: the buffer (or `"\x7b\x7d"` when
empty, via `||`) goes through `safeParseJson`, and an irrecoverable failure
degrades to empty-object arguments with a console warning.  A missing id is
replaced by a locally generated synthetic id, modelled by the ambient
function `genId` applied to the entry's index; a missing name degrades to
`"unknown"`. -/
def jsArgs (src : String) : Json :=
  match safeParseJson (strOr src "\x7b\x7d") with
  | Except.ok v => v
  | Except.error _ => Json.obj []

/-- Finalize one accumulator entry into a tool call (see the doc comment
above `finalize`). -/
def mkCall (genId : Nat → String) (p : Nat × AccEnt) : LlmToolCallM :=
  { id := if truthyS p.2.id then (p.2.id).getD "" else genId p.1,
    name := if truthyS p.2.name then (p.2.name).getD "" else "unknown",
    arguments := jsArgs p.2.argsSrc }

/-- Build the final `LlmResponse` from the accumulated state (the
finalization block of `handleStreamingRequest`). -/
def finalize (genId : Nat → String) (st : AccSt) : LlmResponseM :=
  { text := if st.textBuf.isEmpty then none else some (String.join st.textBuf),
    toolCalls :=
      if st.accums.isEmpty then none
      else some ((sortByKey st.accums).map (mkCall genId)) }

/-! ## Spec-side observations of a chunk sequence -/

/-- The tool-call fragments a chunk contributes, in arrival order. -/
def chunkFrags (c : ChunkS) : List ToolFrag :=
  match c.choices.head? with
  | some ch =>
    match ch.delta with
    | some d => (d.tool_calls).getD []
    | none => []
  | none => []

/-- All tool-call fragments of a stream, in arrival order. -/
def allFrags (cs : List ChunkS) : List ToolFrag := cs.flatMap chunkFrags

/-- The truthy text fragments a chunk contributes. -/
def chunkTexts (c : ChunkS) : List String :=
  match c.choices.head? with
  | some ch =>
    match ch.delta with
    | some d => if truthyS d.content then [d.content.getD ""] else []
    | none => []
  | none => []

/-- All truthy text fragments of a stream, in arrival order. -/
def textsOf (cs : List ChunkS) : List String := cs.flatMap chunkTexts

/-- Concatenation of all argument text of the fragments at a given index, in
arrival order. -/
def argsCat (fs : List ToolFrag) (i : Nat) : String :=
  fs.foldl (fun s f =>
    if f.index = i ∧ truthyS (fragArgs f) then s ++ (fragArgs f).getD "" else s) ""

/-- The last truthy id written for a given index, if any. -/
def lastIdOf (fs : List ToolFrag) (i : Nat) : Option String :=
  fs.foldl (fun cur f => if f.index = i ∧ truthyS f.id then f.id else cur) none

/-- The last truthy name written for a given index, if any. -/
def lastNameOf (fs : List ToolFrag) (i : Nat) : Option String :=
  fs.foldl (fun cur f => if f.index = i ∧ truthyS (fragName f) then fragName f else cur) none

/-- The distinct tool-call indices of a fragment list, in order of first
appearance (the key set of the accumulator map). -/
def keysOf (fs : List ToolFrag) : List Nat :=
  fs.foldl (fun ks f => if f.index ∈ ks then ks else ks ++ [f.index]) []

/-- Insert into a sorted list of naturals. -/
def insNat (i : Nat) : List Nat → List Nat
  | [] => [i]
  | j :: t => if i ≤ j then i :: j :: t else j :: insNat i t

/-- Sort a list of naturals ascending. -/
def sortNat (l : List Nat) : List Nat := l.foldr insNat []

/-- The distinct tool-call indices of a stream, sorted ascending: the
specification-side description of the order of the finalized tool calls. -/
def specIndices (cs : List ChunkS) : List Nat := sortNat (keysOf (allFrags cs))

/-! ## SSE framer (sendStreamingRequestWithFetch) -/

/-- String-level trim. -/
def strTrim (s : String) : String := ⟨trimJS s.data⟩

/-- Does `s` start with `pre`? -/
def strStarts (s pre : String) : Bool := pre.data.isPrefixOf s.data

/-- Process the complete SSE lines of a stream: blank lines and lines not
starting with `data: ` are skipped; the payload after `data: ` is trimmed; a
`[DONE]` payload ends the stream; any other payload is parsed via
`safeParseJson`, a success is yielded and a failure is skipped with a
console warning, counted here in the second component.  The byte-chunk
reassembly of the source (splitting on newlines, keeping the final partial
line buffered) is abstracted to the resulting sequence of complete lines. -/
def frameLines : List String → List Json × Nat
  | [] => ([], 0)
  | line :: rest =>
    if strTrim line = "" ∨ ¬ strStarts line "data: " then frameLines rest
    else
      let dat := strTrim ⟨line.data.drop 6⟩
      if dat = "[DONE]" then ([], 0)
      else
        match safeParseJson dat with
        | Except.ok j => (j :: (frameLines rest).1, (frameLines rest).2)
        | Except.error _ => ((frameLines rest).1, (frameLines rest).2 + 1)

/-! ## Duck-typed decoding of a parsed chunk

The source casts the parsed JSON directly to `ChatCompletionChunk` and
navigates it with optional chaining; fields of an unexpected shape behave as
absent.  Non-conforming shapes (a primitive where an object/array/string is
expected) are modelled as absent fields. -/

/-- Last-key-wins object field lookup (`JSON.parse` object semantics). -/
def jGet (j : Json) (k : String) : Option Json :=
  match j with
  | Json.obj kvs => kvs.foldl (fun cur kv => if kv.1 = k then some kv.2 else cur) none
  | _ => none

/-- Interpret a field as a string. -/
def jStr (o : Option Json) : Option String :=
  match o with
  | some (Json.str s) => some s
  | _ => none

/-- Interpret a field as an array. -/
def jArr (o : Option Json) : Option (List Json) :=
  match o with
  | some (Json.arr l) => some l
  | _ => none

/-- Interpret a field as a natural number (the `index` of a fragment; the
claims only exercise well-formed natural indices). -/
def jNat (o : Option Json) : Option Nat :=
  match o with
  | some (Json.num t) => t.toNat?
  | _ => none

/-- Decode one `tool_calls` entry. -/
def decodeFrag (j : Json) : ToolFrag :=
  { index := (jNat (jGet j "index")).getD 0,
    id := jStr (jGet j "id"),
    fn :=
      match jGet j "function" with
      | some fj => some { name := jStr (jGet fj "name"), arguments := jStr (jGet fj "arguments") }
      | none => none }

/-- Decode a `delta` object. -/
def decodeDelta (j : Json) : Delta :=
  { content := jStr (jGet j "content"),
    tool_calls := (jArr (jGet j "tool_calls")).map (·.map decodeFrag) }

/-- Decode one choice. -/
def decodeChoice (j : Json) : ChoiceS :=
  { delta :=
      match jGet j "delta" with
      | some (Json.obj kvs) => some (decodeDelta (Json.obj kvs))
      | _ => none,
    finish_reason := jStr (jGet j "finish_reason") }

/-- Decode a parsed chunk. -/
def decodeChunk (j : Json) : ChunkS :=
  { choices := ((jArr (jGet j "choices")).getD []).map decodeChoice }

/-- The streaming pipeline of the part_008 variant, from the HTTP outcome
and the SSE lines to the final response: a non-OK HTTP status raises a
classified `LlmProviderError`; otherwise the framed chunks are accumulated
and finalized.  The second component counts SSE payloads that failed to
parse and were skipped with only a console warning. -/
def pipeline (httpOk : Bool) (status : Nat) (statusText : String) (lines : List String)
    (genId : Nat → String) : Except LlmErrM (LlmResponseM × Nat) :=
  if ¬ httpOk then
    Except.error (createWithTip statusText (some status) (some "/chat/completions"))
  else
    let (js, dropped) := frameLines lines
    Except.ok (finalize genId (runStream (js.map decodeChunk)), dropped)

/-! ## Content mapping (convertContent) -/

/-- Gemini inline data (`part.inlineData`). -/
structure InlineDataM where
  mimeType : Option String := none
  data : Option String := none
deriving DecidableEq

/-- Gemini file data (`part.fileData`). -/
structure FileDataM where
  mimeType : Option String := none
  fileUri : Option String := none
deriving DecidableEq

/-- A Gemini content part (the fields `convertContent` inspects). -/
structure PartM where
  text : Option String := none
  inlineData : Option InlineDataM := none
  fileData : Option FileDataM := none
deriving DecidableEq

/-- An OpenAI multimodal content part. -/
inductive OAIPart where
  | text : String → OAIPart
  | imageUrl : String → String → OAIPart
deriving DecidableEq

/-- JavaScript template interpolation of a possibly-undefined string. -/
def interp (o : Option String) : String := o.getD "undefined"

/-- `${base64Data?.length || 0}`. -/
def b64Len (o : Option String) : Nat :=
  match o with
  | some s => strLen s
  | none => 0

/-- The per-part emission of the `convertContent` loop. -/
def convertPart (p : PartM) : List OAIPart :=
  if truthyS p.text then [OAIPart.text ((p.text).getD "")]
  else
    match p.inlineData with
    | some d =>
      if truthyS d.mimeType ∧ strStarts ((d.mimeType).getD "") "image/" then
        [OAIPart.imageUrl ("data:" ++ (d.mimeType).getD "" ++ ";base64," ++ interp d.data) "auto"]
      else
        [OAIPart.text ("[File: " ++ strOr ((d.mimeType).getD "") "unknown type" ++ ", " ++
          toString (b64Len d.data) ++ " bytes]")]
    | none =>
      match p.fileData with
      | some fd =>
        [OAIPart.text ("[File: " ++ strOr ((fd.mimeType).getD "") "unknown type" ++ ", " ++
          interp fd.fileUri ++ "]")]
      | none => []

/-- `convertContent` on a `Part[]` content value: convert each part and fall
back to a single placeholder text part when nothing was emitted. -/
def convertContentParts (ps : List PartM) : List OAIPart :=
  let l := ps.flatMap convertPart
  if l.isEmpty then [OAIPart.text "[Empty content]"] else l

/-! ## Basic string lemmas -/

/-- Appending strings adds their lengths. -/
theorem strLen_append (a b : String) : strLen (a ++ b) = strLen a + strLen b := by
  cases a with
  | mk da =>
    cases b with
    | mk db => simp [strLen, String.append]

/-- Length of a string prefix. -/
theorem strLen_strTake (s : String) (n : Nat) : strLen (strTake s n) = min n (strLen s) := by
  simp [strLen, strTake]

/-- The token estimate is below the limit iff the length is below four times
the limit. -/
theorem estTokens_le (n t : Nat) : estTokens n ≤ t ↔ n ≤ 4 * t := by
  unfold estTokens
  omega

/-- C7: for positive limits, a string within both limits is returned
byte-identical; otherwise the result is the prefix of length
`min charLimit (tokenLimit*4)` followed by the annotation naming the removed
character count, and the total length is bounded by
`min L charLimit (tokenLimit*4)` plus the annotation length. -/
theorem c7_truncation (s : String) (cl tl : Nat) (_hcl : 0 < cl) (_htl : 0 < tl) :
    (strLen s ≤ cl ∧ estTokens (strLen s) ≤ tl → truncateToolResult s cl tl = s) ∧
    (¬ (strLen s ≤ cl ∧ estTokens (strLen s) ≤ tl) →
      truncateToolResult s cl tl =
        strTake s (min cl (tl * 4)) ++ truncNote (strLen s - min cl (tl * 4)) ∧
      strLen (truncateToolResult s cl tl) ≤
        min (strLen s) (min cl (tl * 4)) + strLen (truncNote (strLen s - min cl (tl * 4)))) := by
  constructor
  · intro h
    unfold truncateToolResult
    by_cases hs : s = ""
    · rw [if_pos hs]
    · rw [if_neg hs, if_pos h]
  · intro h
    have hs : s ≠ "" := by
      intro he
      apply h
      rw [he]
      constructor
      · show strLen "" ≤ cl
        simp [strLen]
      · show estTokens (strLen "") ≤ tl
        simp [strLen, estTokens]
    have hgt : min cl (tl * 4) < strLen s := by
      rcases Decidable.not_and_iff_or_not.mp h with h1 | h1
      · omega
      · have := (estTokens_le (strLen s) tl).not.mp h1
        omega
    have heq : truncateToolResult s cl tl =
        strTake s (min cl (tl * 4)) ++ truncNote (strLen s - min cl (tl * 4)) := by
      unfold truncateToolResult
      rw [if_neg hs, if_neg h, if_neg (by omega)]
    refine ⟨heq, ?_⟩
    rw [heq, strLen_append, strLen_strTake]
    omega

/-- C7 witness: an 8-character string with charLimit 4 and tokenLimit 1000 is
truncated to its 4-character prefix plus the annotation. -/
theorem c7_truncation_witness :
    0 < 4 ∧ 0 < 1000 ∧ ¬ (strLen "abcdefgh" ≤ 4 ∧ estTokens (strLen "abcdefgh") ≤ 1000) ∧
    truncateToolResult "abcdefgh" 4 1000 =
      strTake "abcdefgh" (min 4 (1000 * 4)) ++
        truncNote (strLen "abcdefgh" - min 4 (1000 * 4)) :=
  ⟨by decide, by decide, by decide,
    ((c7_truncation "abcdefgh" 4 1000 (by decide) (by decide)).2 (by decide)).1⟩

/-! ## C8: error-tip classification -/

/-- The amended tip specification: 401, 404 and exactly 500 map to their
fixed tips; otherwise a message containing both "model" and "not" maps to
the model-not-loaded tip; otherwise a message containing "connection" or
"ECONNREFUSED" maps to the server-not-running tip; otherwise no tip. -/
def tipAmendedSpec (status : Option Nat) (message : String) : Option String :=
  if status = some 401 then some tip401
  else if status = some 404 then some tip404
  else if status = some 500 then some tip500
  else if strIncludes message "model" = true ∧ strIncludes message "not" = true then
    some tipModel
  else if strIncludes message "connection" = true ∨ strIncludes message "ECONNREFUSED" = true then
    some tipConn
  else none

/-- C8 counterexample: status 502 (a 5xx status) yields no tip at all, not
the backend-availability tip; and a message containing a connection-refused
indicator together with "model" and "not" yields the model-not-loaded tip,
not the server-not-running tip. -/
theorem c8_counterexample :
    tipFor (some 502) "Bad Gateway" = none ∧
    tipFor (some 502) "Bad Gateway" ≠ some tip500 ∧
    tipFor none "model not loaded; connection ok" = some tipModel ∧
    tipFor none "model not loaded; connection ok" ≠ some tipConn := by
  refine ⟨by decide, by decide, by decide, by decide⟩

/-- C8 amended: tip selection is the pure deterministic function `tipFor` of
(status, message); 401 yields the credential tip, 404 the endpoint tip,
exactly status 500 (not every 5xx) the backend-availability tip, otherwise a
message containing both "model" and "not" yields the model-not-loaded tip,
otherwise a connection-refused indicator yields the server-not-running tip;
`createWithTip` attaches exactly this tip. -/
theorem c8_amended (status : Option Nat) (message : String) (endpoint : Option String) :
    tipFor status message = tipAmendedSpec status message ∧
    createWithTip message status endpoint =
      { message := message, status := status, endpoint := endpoint,
        tip := tipAmendedSpec status message } := by
  have h : tipFor status message = tipAmendedSpec status message := by
    unfold tipFor tipAmendedSpec
    split_ifs <;> simp_all
  exact ⟨h, by simp [createWithTip, h]⟩

/-! ## C9: content mapping -/

/-- C9: `convertContent` on a part list never yields an empty part list; an
empty input maps to the single placeholder text part; an inline-binary part
with a non-image MIME type maps to a synthetic text part naming the MIME
type and size; a file-reference part maps to a synthetic text part naming
the MIME type and location; an inline-binary part with an image MIME type
maps to a data-URI image reference embedding the MIME type and base64
payload. -/
theorem c9_content_mapping (ps : List PartM) (p : PartM) (d : InlineDataM) (fd : FileDataM) :
    convertContentParts ps ≠ [] ∧
    convertContentParts [] = [OAIPart.text "[Empty content]"] ∧
    (truthyS p.text = false → p.inlineData = some d →
      ¬ (truthyS d.mimeType ∧ strStarts ((d.mimeType).getD "") "image/") →
      convertPart p = [OAIPart.text ("[File: " ++ strOr ((d.mimeType).getD "") "unknown type" ++
        ", " ++ toString (b64Len d.data) ++ " bytes]")]) ∧
    (truthyS p.text = false → p.inlineData = none → p.fileData = some fd →
      convertPart p = [OAIPart.text ("[File: " ++ strOr ((fd.mimeType).getD "") "unknown type" ++
        ", " ++ interp fd.fileUri ++ "]")]) ∧
    (truthyS p.text = false → p.inlineData = some d →
      truthyS d.mimeType ∧ strStarts ((d.mimeType).getD "") "image/" →
      convertPart p = [OAIPart.imageUrl
        ("data:" ++ (d.mimeType).getD "" ++ ";base64," ++ interp d.data) "auto"]) := by
  refine ⟨?_, by simp [convertContentParts], ?_, ?_, ?_⟩
  · unfold convertContentParts
    by_cases h : (ps.flatMap convertPart).isEmpty
    · simp [h]
    · simp only [h, if_neg]
      simp only [List.isEmpty_iff] at h
      simp [h]
  · intro ht hd hni
    simp [convertPart, ht, hd, if_neg hni]
  · intro ht hd hf
    simp [convertPart, ht, hd, hf]
  · intro ht hd hi
    simp [convertPart, ht, hd, if_pos hi]

/-- C9 witness: a non-image inline part (a PDF) degrades to a synthetic text
part. -/
theorem c9_content_mapping_witness :
    convertPart { inlineData := some { mimeType := some "application/pdf", data := some "QUJD" } } =
      [OAIPart.text "[File: application/pdf, 4 bytes]"] := by
  have h := (c9_content_mapping []
    { inlineData := some { mimeType := some "application/pdf", data := some "QUJD" } }
    { mimeType := some "application/pdf", data := some "QUJD" } { }).2.2.1
    (by decide) (by decide) (by decide)
  simpa using h

/-! ## Streaming-accumulator invariants -/

/-- The accumulator map built from a bare fragment list. -/
def accumsOf (fs : List ToolFrag) : List (Nat × AccEnt) := procFrags [] fs

/-- `procFrags` splits over append. -/
theorem procFrags_append (m : List (Nat × AccEnt)) (fs1 fs2 : List ToolFrag) :
    procFrags m (fs1 ++ fs2) = procFrags (procFrags m fs1) fs2 := by
  simp [procFrags, List.foldl_append]

/-- Field-wise description of one loop iteration. -/
theorem procChunk_fields (st : AccSt) (c : ChunkS) :
    (procChunk st c).textBuf = st.textBuf ++ chunkTexts c ∧
    (procChunk st c).deltaLog = st.deltaLog ++ chunkTexts c ∧
    (procChunk st c).accums = procFrags st.accums (chunkFrags c) := by
  unfold procChunk chunkTexts chunkFrags
  cases hch : c.choices.head? with
  | none => simp [procFrags]
  | some ch =>
    cases hd : ch.delta with
    | none => simp [hd, procFrags]
    | some d =>
      unfold procDelta
      by_cases ht : truthyS d.content
      · cases htc : d.tool_calls <;> simp [hd, htc, ht, procFrags]
      · cases htc : d.tool_calls <;> simp [hd, htc, ht, procFrags]

/-- The streaming loop, field by field: the text buffer and the `onDelta`
log both collect exactly the truthy text fragments in arrival order, and the
accumulator map is determined by the flattened fragment sequence. -/
theorem runStream_fields (cs : List ChunkS) :
    (runStream cs).textBuf = textsOf cs ∧
    (runStream cs).deltaLog = textsOf cs ∧
    (runStream cs).accums = accumsOf (allFrags cs) := by
  suffices h : ∀ st : AccSt, (cs.foldl procChunk st).textBuf = st.textBuf ++ textsOf cs ∧
      (cs.foldl procChunk st).deltaLog = st.deltaLog ++ textsOf cs ∧
      (cs.foldl procChunk st).accums = procFrags st.accums (allFrags cs) by
    have h2 := h { }
    simpa [runStream, accumsOf] using h2
  induction cs with
  | nil => intro st; simp [textsOf, allFrags, procFrags]
  | cons c rest ih =>
    intro st
    have hc := procChunk_fields st c
    have hr := ih (procChunk st c)
    refine ⟨?_, ?_, ?_⟩
    · rw [List.foldl_cons, hr.1, hc.1]
      simp [textsOf]
    · rw [List.foldl_cons, hr.2.1, hc.2.1]
      simp [textsOf]
    · rw [List.foldl_cons, hr.2.2, hc.2.2]
      rw [show allFrags (c :: rest) = chunkFrags c ++ allFrags rest by simp [allFrags]]
      rw [procFrags_append]

/-- Step description of `argsCat` under a snoc. -/
theorem argsCat_snoc (fs : List ToolFrag) (f : ToolFrag) (i : Nat) :
    argsCat (fs ++ [f]) i =
      argsCat fs i ++ (if f.index = i ∧ truthyS (fragArgs f) then (fragArgs f).getD "" else "") := by
  unfold argsCat
  rw [List.foldl_append]
  simp only [List.foldl_cons, List.foldl_nil]
  split
  · rfl
  · simp

/-- Step description of `lastIdOf` under a snoc. -/
theorem lastIdOf_snoc (fs : List ToolFrag) (f : ToolFrag) (i : Nat) :
    lastIdOf (fs ++ [f]) i =
      if f.index = i ∧ truthyS f.id then f.id else lastIdOf fs i := by
  unfold lastIdOf
  rw [List.foldl_append]
  simp

/-- Step description of `lastNameOf` under a snoc. -/
theorem lastNameOf_snoc (fs : List ToolFrag) (f : ToolFrag) (i : Nat) :
    lastNameOf (fs ++ [f]) i =
      if f.index = i ∧ truthyS (fragName f) then fragName f else lastNameOf fs i := by
  unfold lastNameOf
  rw [List.foldl_append]
  simp

/-- Step description of `keysOf` under a snoc. -/
theorem keysOf_snoc (fs : List ToolFrag) (f : ToolFrag) :
    keysOf (fs ++ [f]) = if f.index ∈ keysOf fs then keysOf fs else keysOf fs ++ [f.index] := by
  unfold keysOf
  rw [List.foldl_append]
  simp

/-- Step description of `accumsOf` under a snoc. -/
theorem accumsOf_snoc (fs : List ToolFrag) (f : ToolFrag) :
    accumsOf (fs ++ [f]) = setFrag (accumsOf fs) f := by
  unfold accumsOf
  rw [procFrags_append]
  simp [procFrags]

/-- C3: concatenating, in arrival order, all text fragments forwarded to the
caller's `onDelta` callback equals the final response's `text` (read as `""`
when absent), and the `text` field is absent exactly when no text fragment
was forwarded. -/
theorem c3_text_append_only (cs : List ChunkS) (genId : Nat → String) :
    String.join ((runStream cs).deltaLog) =
      ((finalize genId (runStream cs)).text).getD "" ∧
    (((finalize genId (runStream cs)).text = none) ↔ (runStream cs).deltaLog = []) := by
  have h := runStream_fields cs
  unfold finalize
  rw [h.1, h.2.1]
  by_cases he : textsOf cs = []
  · simp [he, String.join]
  · have : ¬ (textsOf cs).isEmpty := by
      simpa [List.isEmpty_iff] using he
    simp [this, he]

/-- Field-wise description of `applyFrag`. -/
theorem applyFrag_fields (a : AccEnt) (f : ToolFrag) :
    (applyFrag a f).id = (if truthyS f.id then f.id else a.id) ∧
    (applyFrag a f).name = (if truthyS (fragName f) then fragName f else a.name) ∧
    (applyFrag a f).argsSrc =
      a.argsSrc ++ (if truthyS (fragArgs f) then (fragArgs f).getD "" else "") := by
  unfold applyFrag
  by_cases h1 : truthyS f.id <;> by_cases h2 : truthyS (fragName f) <;>
    by_cases h3 : truthyS (fragArgs f) <;> simp [h1, h2, h3]

/-- `updAssoc` preserves the key list. -/
theorem updAssoc_keys (m : List (Nat × AccEnt)) (i : Nat) (f : ToolFrag) :
    (updAssoc m i f).map Prod.fst = m.map Prod.fst := by
  induction m with
  | nil => rfl
  | cons q t ih =>
    obtain ⟨j, a⟩ := q
    unfold updAssoc
    by_cases h : j = i <;> simp [h, ih]

/-- `hasKey` decides key-list membership. -/
theorem hasKey_iff (m : List (Nat × AccEnt)) (i : Nat) :
    hasKey m i = true ↔ i ∈ m.map Prod.fst := by
  unfold hasKey
  rw [List.any_eq_true]
  constructor
  · rintro ⟨p, hp, he⟩
    simp at he
    exact List.mem_map.mpr ⟨p, hp, he⟩
  · rintro hm
    obtain ⟨p, hp, he⟩ := List.mem_map.mp hm
    exact ⟨p, hp, by simp [he]⟩

/-- Key list of `setFrag`. -/
theorem setFrag_keys (m : List (Nat × AccEnt)) (f : ToolFrag) :
    (setFrag m f).map Prod.fst =
      if f.index ∈ m.map Prod.fst then m.map Prod.fst else m.map Prod.fst ++ [f.index] := by
  unfold setFrag
  by_cases h : hasKey m f.index
  · rw [if_pos h, updAssoc_keys, if_pos ((hasKey_iff m f.index).mp h)]
  · rw [if_neg h, if_neg (fun hm => h ((hasKey_iff m f.index).mpr hm))]
    simp

/-- Membership in a map key list, from pair membership. -/
theorem fst_mem_of_mem {m : List (Nat × AccEnt)} {i : Nat} {a : AccEnt} (h : (i, a) ∈ m) :
    i ∈ m.map Prod.fst :=
  List.mem_map.mpr ⟨(i, a), h, rfl⟩

/-- Forward membership description of `updAssoc` under distinct keys: an
entry of the updated map is either an untouched entry with a different key,
or the merged entry at the updated key. -/
theorem updAssoc_mem_of {m : List (Nat × AccEnt)} {i j : Nat} {b : AccEnt} {f : ToolFrag}
    (hnd : (m.map Prod.fst).Nodup) (h : (j, b) ∈ updAssoc m i f) :
    (j ≠ i ∧ (j, b) ∈ m) ∨ (j = i ∧ ∃ a, (i, a) ∈ m ∧ b = applyFrag a f) := by
  induction m with
  | nil => simp [updAssoc] at h
  | cons q t ih =>
    obtain ⟨k, a0⟩ := q
    have hnd2 : (t.map Prod.fst).Nodup := (List.nodup_cons.mp (by simpa using hnd)).2
    have hknotin : k ∉ t.map Prod.fst := (List.nodup_cons.mp (by simpa using hnd)).1
    unfold updAssoc at h
    by_cases hk : k = i
    · rw [if_pos hk] at h
      rcases List.mem_cons.mp h with he | ht
      · have hj : j = k := by
          have := congrArg Prod.fst he
          simpa using this
        have hb : b = applyFrag a0 f := by
          have := congrArg Prod.snd he
          simpa using this
        refine Or.inr ⟨hj.trans hk, a0, ?_, hb⟩
        rw [← hk]
        exact List.mem_cons_self _ _
      · left
        refine ⟨?_, List.mem_cons_of_mem _ ht⟩
        intro hji
        apply hknotin
        rw [← hk] at hji
        rw [← hji]
        exact fst_mem_of_mem ht
    · rw [if_neg hk] at h
      rcases List.mem_cons.mp h with he | ht
      · have hj : j = k := by
          have := congrArg Prod.fst he
          simpa using this
        have hb : b = a0 := by
          have := congrArg Prod.snd he
          simpa using this
        exact Or.inl ⟨by rw [hj]; exact hk, by rw [hj, hb]; exact List.mem_cons_self _ _⟩
      · rcases ih hnd2 ht with ⟨hji, hm⟩ | ⟨hji, a, ha, hb⟩
        · exact Or.inl ⟨hji, List.mem_cons_of_mem _ hm⟩
        · exact Or.inr ⟨hji, a, List.mem_cons_of_mem _ ha, hb⟩

/-- The key set after a snoc contains the old keys and the new index. -/
theorem keysOf_snoc_sub (fs : List ToolFrag) (f : ToolFrag) :
    keysOf fs ⊆ keysOf (fs ++ [f]) ∧ f.index ∈ keysOf (fs ++ [f]) := by
  rw [keysOf_snoc]
  by_cases h : f.index ∈ keysOf fs
  · simp [h, List.Subset.refl]
  · simp [h]

/-- Key-list membership of `keysOf` matches the indices of the fragments. -/
theorem keysOf_mem (fs : List ToolFrag) (i : Nat) :
    i ∈ keysOf fs ↔ i ∈ fs.map (·.index) := by
  induction fs using List.reverseRecOn with
  | nil => simp [keysOf]
  | append_singleton fs f ih =>
    rw [keysOf_snoc]
    by_cases h : f.index ∈ keysOf fs
    · simp only [if_pos h, List.map_append, List.map_cons, List.map_nil, List.mem_append]
      constructor
      · intro hi
        exact Or.inl (ih.mp hi)
      · rintro (hi | hi)
        · exact ih.mpr hi
        · simp at hi
          rw [hi]
          exact h
    · simp only [if_neg h, List.map_append, List.map_cons, List.map_nil, List.mem_append]
      rw [ih]

/-- The key list of `keysOf` has no duplicates. -/
theorem keysOf_nodup (fs : List ToolFrag) : (keysOf fs).Nodup := by
  induction fs using List.reverseRecOn with
  | nil => simp [keysOf]
  | append_singleton fs f ih =>
    rw [keysOf_snoc]
    by_cases h : f.index ∈ keysOf fs
    · simpa [h] using ih
    · simp only [if_neg h]
      refine List.Nodup.append ih (by simp) ?_
      intro i hi hmem
      simp at hmem
      rw [hmem] at hi
      exact h hi

/-- An index outside the key set has no recorded id, name or argument text. -/
theorem notMem_keysOf_spec (fs : List ToolFrag) (i : Nat) (h : i ∉ keysOf fs) :
    lastIdOf fs i = none ∧ lastNameOf fs i = none ∧ argsCat fs i = "" := by
  induction fs using List.reverseRecOn with
  | nil => simp [lastIdOf, lastNameOf, argsCat]
  | append_singleton fs f ih =>
    have hsub := keysOf_snoc_sub fs f
    have h1 : i ∉ keysOf fs := fun hi => h (hsub.1 hi)
    have h2 : f.index ≠ i := fun he => h (he ▸ hsub.2)
    have := ih h1
    rw [lastIdOf_snoc, lastNameOf_snoc, argsCat_snoc]
    simp [h2, this.1, this.2.1, this.2.2]

/-- The central invariant of the streaming accumulator: the key list of the
map is exactly `keysOf` (first-appearance order, duplicate-free), and every
entry records the last truthy id, the last truthy name and the concatenated
argument text of its index. -/
theorem accumsOf_inv (fs : List ToolFrag) :
    (accumsOf fs).map Prod.fst = keysOf fs ∧
    ∀ i a, (i, a) ∈ accumsOf fs →
      a.id = lastIdOf fs i ∧ a.name = lastNameOf fs i ∧ a.argsSrc = argsCat fs i := by
  induction fs using List.reverseRecOn with
  | nil => simp [accumsOf, procFrags, keysOf]
  | append_singleton fs f ih =>
    obtain ⟨ihk, ihm⟩ := ih
    have hnd : ((accumsOf fs).map Prod.fst).Nodup := by
      rw [ihk]
      exact keysOf_nodup fs
    rw [accumsOf_snoc]
    constructor
    · rw [setFrag_keys, ihk, keysOf_snoc]
    · intro i a ha
      unfold setFrag at ha
      by_cases hk : hasKey (accumsOf fs) f.index
      · rw [if_pos hk] at ha
        rcases updAssoc_mem_of hnd ha with ⟨hne, hm⟩ | ⟨he, a0, hm, hb⟩
        · have := ihm i a hm
          rw [lastIdOf_snoc, lastNameOf_snoc, argsCat_snoc]
          have hfi : f.index ≠ i := fun hfe => hne (hfe.symm)
          simp [hfi, this.1, this.2.1, this.2.2]
        · have h0 := ihm f.index a0 hm
          have haf := applyFrag_fields a0 f
          rw [hb, lastIdOf_snoc, lastNameOf_snoc, argsCat_snoc, he]
          refine ⟨?_, ?_, ?_⟩
          · rw [haf.1, h0.1]
            by_cases ht : truthyS f.id <;> simp [ht]
          · rw [haf.2.1, h0.2.1]
            by_cases ht : truthyS (fragName f) <;> simp [ht]
          · rw [haf.2.2, h0.2.2]
            by_cases ht : truthyS (fragArgs f) <;> simp [ht]
      · rw [if_neg hk] at ha
        have hknot : f.index ∉ keysOf fs := by
          intro hmem
          apply hk
          rw [hasKey_iff, ihk]
          exact hmem
        rcases List.mem_append.mp ha with hm | hm
        · have := ihm i a hm
          have hne : f.index ≠ i := by
            intro he
            apply hknot
            rw [he, ← ihk]
            exact fst_mem_of_mem hm
          rw [lastIdOf_snoc, lastNameOf_snoc, argsCat_snoc]
          simp [hne, this.1, this.2.1, this.2.2]
        · have he : i = f.index ∧ a = applyFrag { } f := by
            simp at hm
            exact ⟨by rw [hm.1], by rw [hm.2]⟩
          obtain ⟨hei, hea⟩ := he
          have hnone := notMem_keysOf_spec fs f.index hknot
          have haf := applyFrag_fields { } f
          rw [hei, hea, lastIdOf_snoc, lastNameOf_snoc, argsCat_snoc]
          refine ⟨?_, ?_, ?_⟩
          · rw [haf.1, hnone.1]
            by_cases ht : truthyS f.id <;> simp [ht]
          · rw [haf.2.1, hnone.2.1]
            by_cases ht : truthyS (fragName f) <;> simp [ht]
          · rw [haf.2.2, hnone.2.2]
            by_cases ht : truthyS (fragArgs f) <;> simp [ht]

/-! ## Sorting lemmas -/

/-- `insKey` and `insNat` commute with the key projection. -/
theorem insKey_map_fst (p : Nat × AccEnt) (l : List (Nat × AccEnt)) :
    (insKey p l).map Prod.fst = insNat p.1 (l.map Prod.fst) := by
  induction l with
  | nil => rfl
  | cons q t ih =>
    unfold insKey insNat
    by_cases h : p.1 ≤ q.1 <;> simp [h, ih]

/-- The sorted key list of `sortByKey` is the sorted key list. -/
theorem sortByKey_map_fst (m : List (Nat × AccEnt)) :
    (sortByKey m).map Prod.fst = sortNat (m.map Prod.fst) := by
  induction m with
  | nil => rfl
  | cons q t ih =>
    unfold sortByKey sortNat at *
    simp only [List.foldr_cons, List.map_cons]
    rw [insKey_map_fst, ih]

/-- `insKey` is a permutation of consing. -/
theorem insKey_perm (p : Nat × AccEnt) (l : List (Nat × AccEnt)) :
    (insKey p l).Perm (p :: l) := by
  induction l with
  | nil => simp [insKey]
  | cons q t ih =>
    unfold insKey
    by_cases h : p.1 ≤ q.1
    · simp [h]
    · rw [if_neg h]
      exact (List.Perm.cons q ih).trans (List.Perm.swap p q t)

/-- `sortByKey` permutes its input. -/
theorem sortByKey_perm (m : List (Nat × AccEnt)) : (sortByKey m).Perm m := by
  induction m with
  | nil => simp [sortByKey]
  | cons q t ih =>
    unfold sortByKey at *
    simp only [List.foldr_cons]
    exact (insKey_perm q _).trans (List.Perm.cons q ih)

/-- `insNat` is a permutation of consing. -/
theorem insNat_perm (i : Nat) (l : List Nat) : (insNat i l).Perm (i :: l) := by
  induction l with
  | nil => simp [insNat]
  | cons j t ih =>
    unfold insNat
    by_cases h : i ≤ j
    · simp [h]
    · rw [if_neg h]
      exact (List.Perm.cons j ih).trans (List.Perm.swap i j t)

/-- `sortNat` permutes its input. -/
theorem sortNat_perm (l : List Nat) : (sortNat l).Perm l := by
  induction l with
  | nil => simp [sortNat]
  | cons j t ih =>
    unfold sortNat at *
    simp only [List.foldr_cons]
    exact (insNat_perm j _).trans (List.Perm.cons j ih)

/-- `insNat` preserves ascending sortedness. -/
theorem insNat_sorted (i : Nat) (l : List Nat) (h : l.Pairwise (· ≤ ·)) :
    (insNat i l).Pairwise (· ≤ ·) := by
  induction l with
  | nil => simp [insNat]
  | cons j t ih =>
    unfold insNat
    by_cases hij : i ≤ j
    · rw [if_pos hij]
      refine List.Pairwise.cons ?_ h
      intro b hb
      rcases List.mem_cons.mp hb with he | hm
      · rw [he]
        exact hij
      · exact le_trans hij (List.rel_of_pairwise_cons h hm)
    · rw [if_neg hij]
      have ht := (List.pairwise_cons.mp h).2
      refine List.pairwise_cons.mpr ⟨?_, ih ht⟩
      intro b hb
      have hmem : b ∈ i :: t := (insNat_perm i t).mem_iff.mp hb
      rcases List.mem_cons.mp hmem with he | hm
      · rw [he]
        omega
      · exact (List.pairwise_cons.mp h).1 b hm

/-- `sortNat` sorts ascending. -/
theorem sortNat_sorted (l : List Nat) : (sortNat l).Pairwise (· ≤ ·) := by
  induction l with
  | nil => simp [sortNat]
  | cons j t ih =>
    unfold sortNat at *
    simp only [List.foldr_cons]
    exact insNat_sorted j _ ih

/-- On a duplicate-free input, `sortNat` sorts strictly ascending. -/
theorem sortNat_strict (l : List Nat) (h : l.Nodup) : (sortNat l).Pairwise (· < ·) := by
  have hs := sortNat_sorted l
  have hn : (sortNat l).Nodup := (sortNat_perm l).nodup_iff.mpr h
  have := List.Pairwise.and hs hn
  exact this.imp (fun hab => lt_of_le_of_ne hab.1 hab.2)

/-! ## The finalized tool-call list -/

/-- The finalized tool-call list of a stream (empty when the map is empty
and the `toolCalls` field is absent). -/
def finalCalls (cs : List ChunkS) (genId : Nat → String) : List LlmToolCallM :=
  ((finalize genId (runStream cs)).toolCalls).getD []

/-- The finalized list is the key-sorted accumulator map, entry by entry. -/
theorem finalCalls_eq (cs : List ChunkS) (genId : Nat → String) :
    finalCalls cs genId = (sortByKey (accumsOf (allFrags cs))).map (mkCall genId) := by
  unfold finalCalls finalize
  rw [(runStream_fields cs).2.2]
  by_cases h : (accumsOf (allFrags cs)).isEmpty
  · rw [List.isEmpty_iff] at h
    simp [h, sortByKey]
  · simp [h]

/-- The keys of the sorted accumulator map are `specIndices`. -/
theorem sorted_keys_eq (cs : List ChunkS) :
    (sortByKey (accumsOf (allFrags cs))).map Prod.fst = specIndices cs := by
  rw [sortByKey_map_fst, (accumsOf_inv (allFrags cs)).1]
  rfl

/-- Positional description of the finalized list: the `k`-th finalized tool
call is the finalization of an accumulator entry whose key is the `k`-th
smallest stream index. -/
theorem finalCalls_get (cs : List ChunkS) (genId : Nat → String) (k i : Nat)
    (hi : (specIndices cs)[k]? = some i) :
    ∃ a : AccEnt, (i, a) ∈ accumsOf (allFrags cs) ∧
      (finalCalls cs genId)[k]? = some (mkCall genId (i, a)) := by
  have heq := finalCalls_eq cs genId
  have h1 : (List.map Prod.fst (sortByKey (accumsOf (allFrags cs))))[k]? = some i := by
    rw [sorted_keys_eq cs]
    exact hi
  rw [List.getElem?_map] at h1
  cases hp : (sortByKey (accumsOf (allFrags cs)))[k]? with
  | none =>
    rw [hp] at h1
    simp at h1
  | some p =>
    rw [hp] at h1
    have hfst : p.1 = i := by
      simpa using h1
    have hmem : p ∈ accumsOf (allFrags cs) :=
      (sortByKey_perm (accumsOf (allFrags cs))).mem_iff.mp (List.getElem?_mem hp)
    refine ⟨p.2, ?_, ?_⟩
    · rw [← hfst]
      exact hmem
    · rw [heq, List.getElem?_map, hp]
      rw [← hfst]
      rfl

/-- The length of the finalized list equals the number of distinct indices. -/
theorem finalCalls_length (cs : List ChunkS) (genId : Nat → String) :
    (finalCalls cs genId).length = (specIndices cs).length := by
  rw [finalCalls_eq, List.length_map, ← sorted_keys_eq cs, List.length_map]

/-! ## Parsing helper lemmas -/

/-- The empty string is not valid JSON. -/
theorem parse_empty : parse "" = none := rfl

/-- `safeParseJson` returns the direct parse when the input already parses:
repair is never invoked on it. -/
theorem safeParse_of_parse (s : String) (v : Json) (h : parse s = some v) :
    safeParseJson s = Except.ok v := by
  unfold safeParseJson
  rw [h]

/-- A parseable argument buffer is decoded to exactly its parse. -/
theorem jsArgs_of_parse (s : String) (v : Json) (h : parse s = some v) : jsArgs s = v := by
  have hne : s ≠ "" := by
    intro he
    rw [he, parse_empty] at h
    exact Option.noConfusion h
  unfold jsArgs
  rw [show strOr s "\x7b\x7d" = s from if_neg hne, safeParse_of_parse s v h]

/-- The empty argument buffer degrades to empty-object arguments. -/
theorem jsArgs_empty : jsArgs "" = Json.obj [] := rfl

/-- Truthiness of an optional string unpacked. -/
theorem truthyS_some_iff (o : Option String) :
    truthyS o = true ↔ ∃ s, o = some s ∧ s ≠ "" := by
  cases o <;> simp [truthyS]

/-- `lastIdOf` only records truthy (non-empty) ids. -/
theorem lastIdOf_ne_empty (fs : List ToolFrag) (i : Nat) (s : String)
    (h : lastIdOf fs i = some s) : s ≠ "" := by
  induction fs using List.reverseRecOn with
  | nil => simp [lastIdOf] at h
  | append_singleton fs f ih =>
    rw [lastIdOf_snoc] at h
    by_cases hc : f.index = i ∧ truthyS f.id
    · rw [if_pos hc] at h
      obtain ⟨s2, hs2, hne⟩ := (truthyS_some_iff f.id).mp hc.2
      rw [hs2] at h
      cases h
      exact hne
    · rw [if_neg hc] at h
      exact ih h

/-- `lastNameOf` only records truthy (non-empty) names. -/
theorem lastNameOf_ne_empty (fs : List ToolFrag) (i : Nat) (s : String)
    (h : lastNameOf fs i = some s) : s ≠ "" := by
  induction fs using List.reverseRecOn with
  | nil => simp [lastNameOf] at h
  | append_singleton fs f ih =>
    rw [lastNameOf_snoc] at h
    by_cases hc : f.index = i ∧ truthyS (fragName f)
    · rw [if_pos hc] at h
      obtain ⟨s2, hs2, hne⟩ := (truthyS_some_iff (fragName f)).mp hc.2
      rw [hs2] at h
      cases h
      exact hne
    · rw [if_neg hc] at h
      exact ih h

/-- Field description of the `k`-th finalized tool call, via the invariant. -/
theorem finalCalls_fields (cs : List ChunkS) (genId : Nat → String) (k i : Nat)
    (hi : (specIndices cs)[k]? = some i) :
    ∃ tc : LlmToolCallM, (finalCalls cs genId)[k]? = some tc ∧
      tc.id = (lastIdOf (allFrags cs) i).getD (genId i) ∧
      tc.name = (lastNameOf (allFrags cs) i).getD "unknown" ∧
      tc.arguments = jsArgs (argsCat (allFrags cs) i) := by
  obtain ⟨a, hmem, hget⟩ := finalCalls_get cs genId k i hi
  have hf := (accumsOf_inv (allFrags cs)).2 i a hmem
  refine ⟨mkCall genId (i, a), hget, ?_, ?_, ?_⟩
  · show (if truthyS a.id then (a.id).getD "" else genId i) = _
    rw [hf.1]
    cases hl : lastIdOf (allFrags cs) i with
    | none => simp [truthyS]
    | some s =>
      have : truthyS (some s) = true := by
        simp [truthyS, lastIdOf_ne_empty (allFrags cs) i s hl]
      simp [this]
  · show (if truthyS a.name then (a.name).getD "" else "unknown") = _
    rw [hf.2.1]
    cases hl : lastNameOf (allFrags cs) i with
    | none => simp [truthyS]
    | some s =>
      have : truthyS (some s) = true := by
        simp [truthyS, lastNameOf_ne_empty (allFrags cs) i s hl]
      simp [this]
  · show jsArgs a.argsSrc = _
    rw [hf.2.2]

/-! ## C1, C2, C10: the streaming finalization claims -/

/-- C1: for every stream, the finalized tool-call list is ordered by
strictly ascending index (the `k`-th entry belongs to the `k`-th smallest
index, and the index list is strictly sorted), it has one entry per distinct
index, and every entry whose concatenated argument fragments (in arrival
order) form parseable JSON carries exactly the JSON-parse of that
concatenation as its arguments. -/
theorem c1_stream_ordering (cs : List ChunkS) (genId : Nat → String) :
    (specIndices cs).Pairwise (· < ·) ∧
    (finalCalls cs genId).length = (specIndices cs).length ∧
    ∀ (k i : Nat) (v : Json), (specIndices cs)[k]? = some i →
      parse (argsCat (allFrags cs) i) = some v →
      ∃ tc : LlmToolCallM, (finalCalls cs genId)[k]? = some tc ∧ tc.arguments = v := by
  refine ⟨sortNat_strict _ (keysOf_nodup (allFrags cs)), finalCalls_length cs genId, ?_⟩
  intro k i v hi hp
  obtain ⟨tc, hget, _, _, hargs⟩ := finalCalls_fields cs genId k i hi
  exact ⟨tc, hget, by rw [hargs, jsArgs_of_parse _ v hp]⟩

/-- A synthetic id generator for the concrete witnesses. -/
def wGenId : Nat → String := fun n => "call_" ++ toString n

/-- A chunk carrying the given tool-call fragments. -/
def wChunk (fs : List ToolFrag) : ChunkS :=
  { choices := [{ delta := some { tool_calls := some fs } }] }

/-- Witness stream: fragments of spec scenario 2, index 1 arriving first,
index 0's arguments split across two chunks. -/
def wStream : List ChunkS :=
  [wChunk [{ index := 1, id := some "c1",
             fn := some { name := some "get_time", arguments := some "\x7b\x7d" } }],
   wChunk [{ index := 0, id := some "c0",
             fn := some { name := some "search", arguments := some "\x7b\"q\"" } }],
   wChunk [{ index := 0, fn := some { arguments := some ":\"weather\"\x7d" } }]]

/-- C1 witness: on the interleaved two-tool stream the first finalized entry
is index 0 with arguments parsed from the concatenation of its fragments. -/
theorem c1_stream_ordering_witness :
    (specIndices wStream)[0]? = some 0 ∧
    parse (argsCat (allFrags wStream) 0) = some (Json.obj [("q", Json.str "weather")]) ∧
    ∃ tc : LlmToolCallM, (finalCalls wStream wGenId)[0]? = some tc ∧
      tc.arguments = Json.obj [("q", Json.str "weather")] :=
  ⟨rfl, rfl, (c1_stream_ordering wStream wGenId).2.2 0 0 _ rfl rfl⟩

/-- Witness stream for C2: two fragments for index 0 both carry an id; the
first also carries a name. -/
def c2Stream : List ChunkS :=
  [wChunk [{ index := 0, id := some "a", fn := some { name := some "n" } }],
   wChunk [{ index := 0, id := some "b" }]]

/-- C2 counterexample: when two fragments of the same index both carry an
id, the finalized tool call keeps the id of the LAST fragment ("b"), not the
first-seen id ("a"): the claimed first-write-wins behavior does not hold. -/
theorem c2_counterexample :
    (finalCalls c2Stream wGenId).map (fun tc => tc.id) = ["b"] ∧ ("b" : String) ≠ "a" :=
  ⟨rfl, by decide⟩

/-- C2 amended: a later fragment carrying a truthy id (or name) overwrites
the stored value, so the finalized entry keeps the LAST-seen id and name
(defaulting to a synthetic id and to "unknown" when never set); argument
fragments are appended in arrival order. -/
theorem c2_amended (cs : List ChunkS) (genId : Nat → String) (k i : Nat)
    (hi : (specIndices cs)[k]? = some i) :
    ∃ tc : LlmToolCallM, (finalCalls cs genId)[k]? = some tc ∧
      tc.id = (lastIdOf (allFrags cs) i).getD (genId i) ∧
      tc.name = (lastNameOf (allFrags cs) i).getD "unknown" ∧
      tc.arguments = jsArgs (argsCat (allFrags cs) i) :=
  finalCalls_fields cs genId k i hi

/-- C2 amended witness: on the two-id stream the finalized id is the last
one written. -/
theorem c2_amended_witness :
    (specIndices c2Stream)[0]? = some 0 ∧
    lastIdOf (allFrags c2Stream) 0 = some "b" ∧
    ∃ tc : LlmToolCallM, (finalCalls c2Stream wGenId)[0]? = some tc ∧
      tc.id = (lastIdOf (allFrags c2Stream) 0).getD (wGenId 0) ∧
      tc.name = (lastNameOf (allFrags c2Stream) 0).getD "unknown" ∧
      tc.arguments = jsArgs (argsCat (allFrags c2Stream) 0) :=
  ⟨rfl, rfl, c2_amended c2Stream wGenId 0 0 rfl⟩

/-- C10: every index seen in the stream yields exactly one finalized entry
(the list length is the number of distinct indices, and an index appears in
`specIndices` iff some fragment carried it); an entry whose name was never
set is emitted with the literal name "unknown", and one whose argument
buffer is empty is emitted with empty-object arguments. -/
theorem c10_fallbacks (cs : List ChunkS) (genId : Nat → String) :
    (finalCalls cs genId).length = (specIndices cs).length ∧
    (∀ i, i ∈ specIndices cs ↔ i ∈ (allFrags cs).map (·.index)) ∧
    ∀ (k i : Nat), (specIndices cs)[k]? = some i →
      ∃ tc : LlmToolCallM, (finalCalls cs genId)[k]? = some tc ∧
        (lastNameOf (allFrags cs) i = none → tc.name = "unknown") ∧
        (argsCat (allFrags cs) i = "" → tc.arguments = Json.obj []) := by
  refine ⟨finalCalls_length cs genId, ?_, ?_⟩
  · intro i
    rw [show specIndices cs = sortNat (keysOf (allFrags cs)) from rfl]
    rw [(sortNat_perm (keysOf (allFrags cs))).mem_iff]
    exact keysOf_mem (allFrags cs) i
  · intro k i hi
    obtain ⟨tc, hget, _, hname, hargs⟩ := finalCalls_fields cs genId k i hi
    refine ⟨tc, hget, ?_, ?_⟩
    · intro hn
      rw [hname, hn]
      rfl
    · intro ha
      rw [hargs, ha, jsArgs_empty]

/-- Witness stream for C10: a single fragment carrying only an id. -/
def c10Stream : List ChunkS := [wChunk [{ index := 5, id := some "x" }]]

/-- C10 witness: the id-only fragment finalizes to name "unknown" and
empty-object arguments. -/
theorem c10_fallbacks_witness :
    (specIndices c10Stream)[0]? = some 5 ∧
    ∃ tc : LlmToolCallM, (finalCalls c10Stream wGenId)[0]? = some tc ∧
      (lastNameOf (allFrags c10Stream) 5 = none → tc.name = "unknown") ∧
      (argsCat (allFrags c10Stream) 5 = "" → tc.arguments = Json.obj []) :=
  ⟨rfl, (c10_fallbacks c10Stream wGenId).2.2 0 5 rfl⟩

/-! ## C6: stream termination -/

/-- A chunk whose first choice carries a finish reason and text "a". -/
def c6ChunkA : ChunkS :=
  { choices := [{ delta := some { content := some "a" }, finish_reason := some "stop" }] }

/-- A later chunk carrying text "b" and no finish reason. -/
def c6ChunkB : ChunkS :=
  { choices := [{ delta := some { content := some "b" } }] }

/-- C6 counterexample: in the part_008 variant of `handleStreamingRequest`
(whose loop never inspects `finish_reason`), a delta arriving after a delta
with a non-null finish reason is still merged: the final text is "ab", not
"a".  The part_007 variant stops after the finishing chunk. -/
theorem c6_counterexample :
    isFin c6ChunkA = true ∧
    (finalize wGenId (runStream [c6ChunkA, c6ChunkB])).text = some "ab" ∧
    some "ab" ≠ some "a" ∧
    (finalize wGenId (runStreamFin { } [c6ChunkA, c6ChunkB])).text = some "a" :=
  ⟨rfl, rfl, by decide, rfl⟩

/-- C6 amended: the `[DONE]` sentinel ends the stream in both variants (the
framer stops at the first `[DONE]` line and ignores everything after it);
recognition of a truthy `finish_reason` as termination exists only in the
part_007 variant, which processes the finishing chunk itself and then merges
nothing further; the part_008 loop does not inspect `finish_reason` (see the
counterexample). -/
theorem c6_amended :
    (∀ (st : AccSt) (cs1 : List ChunkS) (c : ChunkS) (cs2 : List ChunkS), isFin c = true →
      runStreamFin st (cs1 ++ c :: cs2) = runStreamFin st (cs1 ++ [c])) ∧
    (∀ ls1 ls2 : List String,
      frameLines (ls1 ++ "data: [DONE]" :: ls2) = frameLines (ls1 ++ ["data: [DONE]"])) := by
  constructor
  · intro st cs1
    induction cs1 generalizing st with
    | nil =>
      intro c cs2 hf
      unfold isFin at hf
      cases hch : c.choices.head? with
      | none =>
        rw [hch] at hf
        simp at hf
      | some ch =>
        rw [hch] at hf
        simp at hf
        simp [runStreamFin, hch, hf]
    | cons d cs1 ih =>
      intro c cs2 hf
      simp only [List.cons_append]
      cases hch : d.choices.head? with
      | none => simp [runStreamFin, hch, ih _ c cs2 hf]
      | some ch =>
        by_cases ht : truthyS ch.finish_reason
        · simp [runStreamFin, hch, ht]
        · simp [runStreamFin, hch, ht, ih _ c cs2 hf]
  · intro ls1 ls2
    induction ls1 with
    | nil => rfl
    | cons l ls1 ih =>
      simp only [List.cons_append]
      unfold frameLines
      by_cases h : strTrim l = "" ∨ ¬ strStarts l "data: "
      · simp only [if_pos h]
        exact ih
      · simp only [if_neg h]
        by_cases hd : strTrim ⟨l.data.drop 6⟩ = "[DONE]"
        · simp [hd]
        · simp only [if_neg hd]
          cases safeParseJson (strTrim ⟨l.data.drop 6⟩) with
          | ok j => simp [ih]
          | error e => simp [ih]

/-- C6 amended witness: a finishing chunk placed mid-stream makes the
part_007 loop ignore the rest, and a `[DONE]` line mid-stream makes the
framer ignore the rest. -/
theorem c6_amended_witness :
    isFin c6ChunkA = true ∧
    runStreamFin { } ([c6ChunkB] ++ c6ChunkA :: [c6ChunkB]) =
      runStreamFin { } ([c6ChunkB] ++ [c6ChunkA]) ∧
    frameLines (["data: 1"] ++ "data: [DONE]" :: ["data: 2"]) =
      frameLines (["data: 1"] ++ ["data: [DONE]"]) :=
  ⟨rfl, (c6_amended).1 { } [c6ChunkB] c6ChunkA [c6ChunkB] rfl,
    (c6_amended).2 ["data: 1"] ["data: 2"]⟩

/-! ## C5: error surfacing -/

/-- The `some` of a successful `Except` computation. -/
def exOpt (e : Except String Json) : Option Json :=
  match e with
  | Except.ok v => some v
  | Except.error _ => none

/-- Did an `Except` computation succeed? -/
def exOk (e : Except String Json) : Bool :=
  match e with
  | Except.ok _ => true
  | Except.error _ => false

/-- Is a line a non-blank `data: ` line (the lines the framer consumes)? -/
def isDataLine (l : String) : Bool :=
  decide (¬ (strTrim l = "" ∨ ¬ strStarts l "data: "))

/-- The trimmed payloads of the `data: ` lines of a stream, in order. -/
def dataPayloads (ls : List String) : List String :=
  (ls.filter isDataLine).map (fun l => strTrim ⟨l.data.drop 6⟩)

/-- The SSE lines of the C5 counterexample: a payload that fails to parse
even after repair, followed by a well-formed content chunk and `[DONE]`. -/
def c5Lines : List String :=
  ["data: !!!",
   "data: \x7b\"choices\":[\x7b\"delta\":\x7b\"content\":\"hi\"\x7d\x7d]\x7d",
   "data: [DONE]"]

/-- C5 counterexample: a streamed event whose payload fails to parse is NOT
surfaced to the caller: the pipeline still completes successfully (an `ok`
result carrying the text of the remaining chunks), with the malformed
payload merely dropped (counted here; the source logs a console warning). -/
theorem c5_counterexample :
    (frameLines c5Lines).2 = 1 ∧
    pipeline true 200 "" c5Lines wGenId =
      Except.ok ({ text := some "hi", toolCalls := none }, 1) :=
  ⟨rfl, rfl⟩

/-- C5 amended: inside the streaming path TWO degradations are silent with
respect to the caller: (1) an SSE payload that fails `safeParseJson` is
skipped with a console warning — the framer yields exactly the successfully
parsed payloads before the first `[DONE]` and counts the failures, and never
raises; (2) an accumulated tool-call argument buffer that fails
`safeParseJson` degrades to empty-object arguments with a console warning.
Other failures (non-OK HTTP status) are surfaced as a classified typed
error. -/
theorem c5_amended (ls : List String) (cs : List ChunkS) (genId : Nat → String) (k i : Nat)
    (st : Nat) (stTxt : String) (hi : (specIndices cs)[k]? = some i)
    (herr : exOk (safeParseJson (strOr (argsCat (allFrags cs) i) "\x7b\x7d")) = false) :
    (frameLines ls).1 =
      ((dataPayloads ls).takeWhile (fun d => d ≠ "[DONE]")).filterMap
        (fun d => exOpt (safeParseJson d)) ∧
    (frameLines ls).2 =
      (((dataPayloads ls).takeWhile (fun d => d ≠ "[DONE]")).filter
        (fun d => !(exOk (safeParseJson d)))).length ∧
    (∃ tc : LlmToolCallM, (finalCalls cs genId)[k]? = some tc ∧
      tc.arguments = Json.obj []) ∧
    pipeline false st stTxt ls genId =
      Except.error (createWithTip stTxt (some st) (some "/chat/completions")) := by
  have hchar : ∀ ls2 : List String, (frameLines ls2).1 =
      ((dataPayloads ls2).takeWhile (fun d => d ≠ "[DONE]")).filterMap
        (fun d => exOpt (safeParseJson d)) ∧
      (frameLines ls2).2 =
      (((dataPayloads ls2).takeWhile (fun d => d ≠ "[DONE]")).filter
        (fun d => !(exOk (safeParseJson d)))).length := by
    intro ls2
    induction ls2 with
    | nil => exact ⟨rfl, rfl⟩
    | cons l rest ih =>
      by_cases h : strTrim l = "" ∨ ¬ strStarts l "data: "
      · have hnd : isDataLine l = false := by
          simp only [isDataLine, decide_eq_false_iff_not, Decidable.not_not]
          exact h
        unfold frameLines dataPayloads
        rw [if_pos h]
        simp only [List.filter_cons, hnd, Bool.false_eq_true, if_false]
        exact ih
      · have hnd : isDataLine l = true := by
          simp only [isDataLine, decide_eq_true_eq]
          exact h
        have hdp : dataPayloads (l :: rest) =
            strTrim ⟨l.data.drop 6⟩ :: dataPayloads rest := by
          unfold dataPayloads
          simp [List.filter_cons, hnd]
        by_cases hd : strTrim ⟨l.data.drop 6⟩ = "[DONE]"
        · unfold frameLines
          rw [if_neg h, if_pos hd, hdp]
          simp [hd]
        · unfold frameLines
          rw [if_neg h, if_neg hd, hdp]
          simp only [List.takeWhile_cons]
          rw [show (decide (strTrim ⟨l.data.drop 6⟩ ≠ "[DONE]")) = true by
            simp [hd]]
          cases hp : safeParseJson (strTrim ⟨l.data.drop 6⟩) with
          | ok j =>
            have ho : exOpt (safeParseJson (strTrim ⟨l.data.drop 6⟩)) = some j := by
              rw [hp]
              rfl
            have hk : (!exOk (safeParseJson (strTrim ⟨l.data.drop 6⟩))) = false := by
              rw [hp]
              rfl
            simp only [if_pos, List.filterMap_cons, List.filter_cons, ho, hk,
              Bool.false_eq_true, if_false]
            exact ⟨by rw [ih.1], by rw [ih.2]⟩
          | error e =>
            have ho : exOpt (safeParseJson (strTrim ⟨l.data.drop 6⟩)) = none := by
              rw [hp]
              rfl
            have hk : (!exOk (safeParseJson (strTrim ⟨l.data.drop 6⟩))) = true := by
              rw [hp]
              rfl
            simp only [if_pos, List.filterMap_cons, List.filter_cons, ho, hk, if_true]
            refine ⟨by rw [ih.1], ?_⟩
            simp only [List.length_cons]
            rw [ih.2]
  refine ⟨(hchar ls).1, (hchar ls).2, ?_, ?_⟩
  · obtain ⟨tc, hget, _, _, hargs⟩ := finalCalls_fields cs genId k i hi
    refine ⟨tc, hget, ?_⟩
    rw [hargs]
    unfold jsArgs
    cases hp : safeParseJson (strOr (argsCat (allFrags cs) i) "\x7b\x7d") with
    | ok j =>
      rw [hp] at herr
      simp [exOk] at herr
    | error e => rfl
  · rfl

/-- A stream whose only tool call accumulates an argument buffer that fails
to parse even after repair. -/
def c5ArgStream : List ChunkS :=
  [wChunk [{ index := 0, fn := some { arguments := some "!!!" } }]]

/-- C5 amended witness: the framer on the counterexample lines yields
exactly the one parseable payload and counts the one failure, and a tool
call whose buffer is irrecoverable degrades to empty-object arguments. -/
theorem c5_amended_witness :
    (specIndices c5ArgStream)[0]? = some 0 ∧
    exOk (safeParseJson (strOr (argsCat (allFrags c5ArgStream) 0) "\x7b\x7d")) = false ∧
    (frameLines c5Lines).2 =
      (((dataPayloads c5Lines).takeWhile (fun d => d ≠ "[DONE]")).filter
        (fun d => !(exOk (safeParseJson d)))).length ∧
    ∃ tc : LlmToolCallM, (finalCalls c5ArgStream wGenId)[0]? = some tc ∧
      tc.arguments = Json.obj [] :=
  ⟨rfl, rfl, (c5_amended c5Lines c5ArgStream wGenId 0 0 404 "x" rfl rfl).2.1,
    (c5_amended c5Lines c5ArgStream wGenId 0 0 404 "x" rfl rfl).2.2.1⟩

/-! ## C4: JSON repair idempotence — character-class facts -/

/-- A word character is not a key-prefix character. -/
theorem word_not_keyPre (c : Char) (h : isWord c = true) : isKeyPre c = false := by
  cases hc : isKeyPre c with
  | false => rfl
  | true =>
    exfalso
    simp only [isKeyPre, isWsJS, Bool.or_eq_true, decide_eq_true_eq] at hc
    rcases hc with ((h1 | (((((h1 | h1) | h1) | h1) | h1) | h1)) | h1)
    all_goals rw [h1] at h
    all_goals exact absurd h (by decide)

/-- A word character is not a colon. -/
theorem word_not_colon (c : Char) (h : isWord c = true) : (c = ':') = False := by
  simp only [eq_iff_iff, iff_false]
  intro he
  rw [he] at h
  exact absurd h (by decide)

/-- A whitespace character is not a comma. -/
theorem ws_not_comma (c : Char) (h : isWsJS c = true) : (c = ',') = False := by
  simp only [eq_iff_iff, iff_false]
  intro he
  rw [he] at h
  exact absurd h (by decide)

/-- A whitespace character is not a word character. -/
theorem ws_not_word (c : Char) (h : isWsJS c = true) : isWord c = false := by
  cases hw : isWord c with
  | false => rfl
  | true =>
    exfalso
    simp only [isWsJS, Bool.or_eq_true, decide_eq_true_eq] at h
    rcases h with ((((h2 | h2) | h2) | h2) | h2) | h2
    all_goals rw [h2] at hw
    all_goals exact absurd hw (by decide)

/-- A whitespace character is a key-prefix character. -/
theorem ws_keyPre (c : Char) (h : isWsJS c = true) : isKeyPre c = true := by
  simp [isKeyPre, h]

/-! ### Count preservation -/

/-- `stripCommas` removes only commas. -/
theorem stripCommas_count (c : Char) (hc : c ≠ ',') (l : List Char) :
    (stripCommas l).count c = l.count c := by
  induction l with
  | nil => rfl
  | cons a rest ih =>
    unfold stripCommas
    by_cases h : a = ',' && closeAfterWs rest
    · rw [if_pos h]
      have ha : a = ',' := by
        simp at h
        exact h.1
      rw [ih, List.count_cons]
      have : ¬ (a == c) := by
        simp [ha]
        intro he
        exact hc he.symm
      simp [this]
    · rw [if_neg h]
      rw [List.count_cons, List.count_cons, ih]

/-- `qkGo` inserts only double quotes and colons already present. -/
theorem qkGo_count (c : Char) (hq : c ≠ '"') (b : Bool) (l : List Char) :
    (qkGo b l).count c = l.count c := by
  induction l generalizing b with
  | nil => cases b <;> rfl
  | cons a rest ih =>
    cases b with
    | true =>
      unfold qkGo
      by_cases h : a = ':'
      · rw [if_pos h, h]
        rw [List.count_cons, List.count_cons, List.count_cons, ih false]
        have : ¬ ('"' == c) := by
          simp
          intro he
          exact hq he.symm
        simp [this]
      · rw [if_neg h, List.count_cons, List.count_cons, ih true]
    | false =>
      unfold qkGo
      by_cases h : isKeyPre a && startsWordColon rest
      · rw [if_pos h]
        rw [List.count_cons, List.count_cons, List.count_cons, ih true]
        have : ¬ ('"' == c) := by
          simp
          intro he
          exact hq he.symm
        simp [this]
      · rw [if_neg h, List.count_cons, List.count_cons, ih false]

/-- Counts in the brace-balancing output. -/
theorem balCurly_count_lb (l : List Char) : (balCurly l).count lbrace = l.count lbrace := by
  unfold balCurly
  rw [List.count_append, List.count_replicate]
  have : ¬ (rbrace == lbrace) := by decide
  simp [this]

/-- After `balCurly` the closing-brace count is at least the opening count. -/
theorem balCurly_balanced (l : List Char) :
    (balCurly l).count lbrace ≤ (balCurly l).count rbrace := by
  unfold balCurly
  rw [List.count_append, List.count_append, List.count_replicate, List.count_replicate]
  have h1 : ¬ (rbrace == lbrace) := by decide
  have h2 : (rbrace == rbrace) := by decide
  simp [h1, h2]
  omega

/-- `balSq` touches only square brackets. -/
theorem balSq_count (c : Char) (hc : c ≠ ']') (l : List Char) :
    (balSq l).count c = l.count c := by
  unfold balSq
  rw [List.count_append, List.count_replicate]
  have : ¬ (']' == c) := by
    simp
    intro he
    exact hc he.symm
  simp [this]

/-- After `balSq` the closing-bracket count is at least the opening count. -/
theorem balSq_balanced (l : List Char) :
    (balSq l).count '[' ≤ (balSq l).count ']' := by
  unfold balSq
  rw [List.count_append, List.count_append, List.count_replicate, List.count_replicate]
  have h1 : ¬ (']' == '[') := by decide
  simp [h1]
  omega

/-- `balCurly` touches only curly braces. -/
theorem balCurly_count (c : Char) (hc : c ≠ rbrace) (l : List Char) :
    (balCurly l).count c = l.count c := by
  unfold balCurly
  rw [List.count_append, List.count_replicate]
  have : ¬ (rbrace == c) := by
    simp
    intro he
    exact hc he.symm
  simp [this]

/-- A string whose braces are balanced is a fixed point of `balCurly`. -/
theorem balCurly_fix (l : List Char) (h : l.count lbrace ≤ l.count rbrace) :
    balCurly l = l := by
  unfold balCurly
  rw [show l.count lbrace - l.count rbrace = 0 by omega]
  simp

/-- A string whose brackets are balanced is a fixed point of `balSq`. -/
theorem balSq_fix (l : List Char) (h : l.count '[' ≤ l.count ']') :
    balSq l = l := by
  unfold balSq
  rw [show l.count '[' - l.count ']' = 0 by omega]
  simp

/-! ### Trim fixed-point machinery -/

/-- Does every character of a list fail a predicate at the head? then
`dropWhile` is the identity. -/
theorem dropWhile_fix (p : Char → Bool) (l : List Char)
    (h : ∀ c, l.head? = some c → p c = false) : l.dropWhile p = l := by
  cases l with
  | nil => rfl
  | cons a t => simp [List.dropWhile, h a rfl]

/-- The head of a `dropWhile` result fails the predicate. -/
theorem dropWhile_head (p : Char → Bool) (l : List Char) (c : Char)
    (h : (l.dropWhile p).head? = some c) : p c = false := by
  induction l with
  | nil => simp at h
  | cons a t ih =>
    by_cases hp : p a
    · rw [List.dropWhile_cons_of_pos hp] at h
      exact ih h
    · rw [List.dropWhile_cons_of_neg hp] at h
      simp at h
      rw [← h]
      exact Bool.eq_false_iff.mpr hp

/-- `dropRightWs` is a prefix of its input. -/
theorem dropRightWs_pre (l : List Char) :
    ∃ suf, l = dropRightWs l ++ suf ∧ ∀ c ∈ suf, isWsJS c = true := by
  refine ⟨(l.reverse.takeWhile isWsJS).reverse, ?_, ?_⟩
  · unfold dropRightWs
    calc l = l.reverse.reverse := by simp
    _ = (l.reverse.takeWhile isWsJS ++ l.reverse.dropWhile isWsJS).reverse := by
        rw [List.takeWhile_append_dropWhile]
    _ = (l.reverse.dropWhile isWsJS).reverse ++ (l.reverse.takeWhile isWsJS).reverse := by
        rw [List.reverse_append]
  · intro c hc
    rw [List.mem_reverse] at hc
    exact List.mem_takeWhile_imp hc

/-- The last character of a `dropRightWs` result is not whitespace. -/
theorem dropRightWs_last (l : List Char) (c : Char)
    (h : (dropRightWs l).getLast? = some c) : isWsJS c = false := by
  unfold dropRightWs at h
  rw [List.getLast?_reverse] at h
  exact dropWhile_head isWsJS l.reverse c h

/-- A list whose last character is not whitespace is fixed by `dropRightWs`. -/
theorem dropRightWs_fix (l : List Char)
    (h : ∀ c, l.getLast? = some c → isWsJS c = false) : dropRightWs l = l := by
  unfold dropRightWs
  rw [dropWhile_fix isWsJS l.reverse (fun c hc => h c (by rw [← List.head?_reverse]; exact hc))]
  simp

/-- No trailing whitespace survives `trimJS`. -/
theorem trimJS_last (l : List Char) (c : Char)
    (h : (trimJS l).getLast? = some c) : isWsJS c = false :=
  dropRightWs_last _ c h

/-- The head surviving `trimJS` is not whitespace. -/
theorem trimJS_head (l : List Char) (c : Char)
    (h : (trimJS l).head? = some c) : isWsJS c = false := by
  unfold trimJS at h
  obtain ⟨suf, hsuf, _⟩ := dropRightWs_pre (l.dropWhile isWsJS)
  have hne : dropRightWs (l.dropWhile isWsJS) ≠ [] := by
    intro he
    rw [he] at h
    simp at h
  have : (l.dropWhile isWsJS).head? = some c := by
    rw [hsuf, List.head?_append]
    rw [List.head?_eq_head hne] at h ⊢
    simp [h]
  exact dropWhile_head isWsJS l c this

/-- A trimmed list is a fixed point of `trimJS`. -/
theorem trimJS_fix (l : List Char)
    (hh : ∀ c, l.head? = some c → isWsJS c = false)
    (hl : ∀ c, l.getLast? = some c → isWsJS c = false) : trimJS l = l := by
  unfold trimJS
  rw [dropWhile_fix isWsJS l hh, dropRightWs_fix l hl]

/-! ### Last-character (no trailing whitespace) machinery -/

/-- No trailing whitespace. -/
def endsOk (l : List Char) : Prop := ∀ c, l.getLast? = some c → isWsJS c = false

/-- `getLast?` of a cons with non-empty tail. -/
theorem getLast_cons_ne (c : Char) (t : List Char) (h : t ≠ []) :
    (c :: t).getLast? = t.getLast? := by
  cases t with
  | nil => exact absurd rfl h
  | cons a t2 => simp [List.getLast?_cons_cons]

/-- `endsOk` restricts to a non-empty tail. -/
theorem endsOk_tail (c : Char) (t : List Char) (h : endsOk (c :: t)) (hne : t ≠ []) :
    endsOk t := by
  intro d hd
  exact h d (by rw [getLast_cons_ne c t hne]; exact hd)

/-- Appending non-whitespace preserves `endsOk`. -/
theorem endsOk_append (m app : List Char) (hm : endsOk m)
    (happ : ∀ c ∈ app, isWsJS c = false) : endsOk (m ++ app) := by
  cases ha : app with
  | nil =>
    simpa using hm
  | cons a t =>
    intro d hd
    rw [List.getLast?_append_cons] at hd
    apply happ
    rw [ha]
    exact List.mem_of_mem_getLast? hd

/-- `stripCommas` of a non-empty list is non-empty. -/
theorem stripCommas_ne_nil (l : List Char) (h : l ≠ []) : stripCommas l ≠ [] := by
  induction l with
  | nil => exact absurd rfl h
  | cons c rest ih =>
    unfold stripCommas
    by_cases hc : c = ',' && closeAfterWs rest
    · rw [if_pos hc]
      have hr : rest ≠ [] := by
        intro he
        rw [he] at hc
        simp [closeAfterWs] at hc
      exact ih hr
    · rw [if_neg hc]
      simp

/-- `qkGo` of a non-empty list is non-empty. -/
theorem qkGo_ne_nil (b : Bool) (l : List Char) (h : l ≠ []) : qkGo b l ≠ [] := by
  cases l with
  | nil => exact absurd rfl h
  | cons c rest =>
    cases b with
    | true =>
      unfold qkGo
      by_cases hc : c = ':' <;> simp [hc]
    | false =>
      unfold qkGo
      by_cases hc : isKeyPre c && startsWordColon rest <;> simp [hc]

/-- `stripCommas` preserves the absence of trailing whitespace. -/
theorem endsOk_stripCommas (l : List Char) (h : endsOk l) : endsOk (stripCommas l) := by
  induction l with
  | nil => simpa [stripCommas] using h
  | cons c rest ih =>
    unfold stripCommas
    by_cases hc : c = ',' && closeAfterWs rest
    · rw [if_pos hc]
      have hr : rest ≠ [] := by
        intro he
        rw [he] at hc
        simp [closeAfterWs] at hc
      exact ih (endsOk_tail c rest h hr)
    · rw [if_neg hc]
      by_cases hr : rest = []
      · subst hr
        intro d hd
        simp [stripCommas] at hd
        exact h d (by simp [hd])
      · intro d hd
        rw [getLast_cons_ne c _ (stripCommas_ne_nil rest hr)] at hd
        exact ih (endsOk_tail c rest h hr) d hd

/-- `qkGo` preserves the absence of trailing whitespace. -/
theorem endsOk_qkGo (b : Bool) (l : List Char) (h : endsOk l) : endsOk (qkGo b l) := by
  induction l generalizing b with
  | nil => cases b <;> simpa [qkGo] using h
  | cons c rest ih =>
    cases b with
    | true =>
      unfold qkGo
      by_cases hc : c = ':'
      · rw [if_pos hc]
        by_cases hr : rest = []
        · subst hr
          intro d hd
          simp [qkGo] at hd
          rw [← hd]
          decide
        · intro d hd
          rw [getLast_cons_ne _ _ (by simp [qkGo_ne_nil false rest hr])] at hd
          rw [getLast_cons_ne _ _ (qkGo_ne_nil false rest hr)] at hd
          exact ih false (endsOk_tail c rest h hr) d hd
      · rw [if_neg hc]
        by_cases hr : rest = []
        · subst hr
          intro d hd
          simp [qkGo] at hd
          exact h d (by simp [hd])
        · intro d hd
          rw [getLast_cons_ne _ _ (qkGo_ne_nil true rest hr)] at hd
          exact ih true (endsOk_tail c rest h hr) d hd
    | false =>
      unfold qkGo
      by_cases hc : isKeyPre c && startsWordColon rest
      · rw [if_pos hc]
        have hr : rest ≠ [] := by
          intro he
          rw [he] at hc
          simp [startsWordColon] at hc
        intro d hd
        rw [getLast_cons_ne _ _ (by simp [qkGo_ne_nil true rest hr])] at hd
        rw [getLast_cons_ne _ _ (qkGo_ne_nil true rest hr)] at hd
        exact ih true (endsOk_tail c rest h hr) d hd
      · rw [if_neg hc]
        by_cases hr : rest = []
        · subst hr
          intro d hd
          simp [qkGo] at hd
          exact h d (by simp [hd])
        · intro d hd
          rw [getLast_cons_ne _ _ (qkGo_ne_nil false rest hr)] at hd
          exact ih false (endsOk_tail c rest h hr) d hd

/-! ### Head and shape lemmas -/

/-- Unfolding equation of `stripCommas` at a cons. -/
theorem stripCommas_cons (c : Char) (rest : List Char) :
    stripCommas (c :: rest) =
      if c = ',' && closeAfterWs rest then stripCommas rest else c :: stripCommas rest := rfl

/-- Unfolding equation of `qkGo false` at a cons. -/
theorem qkGo_false_cons (c : Char) (rest : List Char) :
    qkGo false (c :: rest) =
      if isKeyPre c && startsWordColon rest then c :: '"' :: qkGo true rest
      else c :: qkGo false rest := rfl

/-- Unfolding equation of `qkGo true` at a cons. -/
theorem qkGo_true_cons (c : Char) (rest : List Char) :
    qkGo true (c :: rest) =
      if c = ':' then '"' :: ':' :: qkGo false rest else c :: qkGo true rest := rfl

/-- `stripCommas` copies any prefix free of commas. -/
theorem stripCommas_copy (pre t : List Char) (h : ∀ c ∈ pre, c ≠ ',') :
    stripCommas (pre ++ t) = pre ++ stripCommas t := by
  induction pre with
  | nil => rfl
  | cons w pre2 ih =>
    have hw : w ≠ ',' := h w (List.mem_cons_self _ _)
    simp only [List.cons_append]
    rw [stripCommas_cons, if_neg (by simp [hw])]
    rw [ih (fun c hc => h c (List.mem_cons_of_mem _ hc))]

/-- One-step head analysis of `stripCommas`: either the head character is
preserved, or the result starts with whitespace followed by a closing
brace/bracket. -/
theorem stripCommas_head (l : List Char) :
    (stripCommas l).head? = l.head? ∨
    ∃ ws b t, stripCommas l = ws ++ b :: t ∧ (∀ w ∈ ws, isWsJS w = true) ∧
      (b = rbrace ∨ b = ']') := by
  cases l with
  | nil => left; rfl
  | cons c rest =>
    by_cases hc : c = ',' && closeAfterWs rest
    · right
      have hca : closeAfterWs rest = true := by
        simp at hc
        exact hc.2
      unfold closeAfterWs at hca
      cases hd : rest.dropWhile isWsJS with
      | nil => rw [hd] at hca; simp at hca
      | cons b tail =>
        rw [hd] at hca
        have hb : b = rbrace ∨ b = ']' := by
          simp at hca
          rcases hca with h1 | h1
          · left; exact h1
          · right; exact h1
        have hbc : b ≠ ',' := by
          rcases hb with h1 | h1 <;> (rw [h1]; decide)
        have hsplit : rest = rest.takeWhile isWsJS ++ b :: tail := by
          conv_lhs => rw [← List.takeWhile_append_dropWhile (p := isWsJS) (l := rest)]
          rw [hd]
        refine ⟨rest.takeWhile isWsJS, b, stripCommas tail, ?_, ?_, hb⟩
        · rw [stripCommas_cons, if_pos hc]
          conv_lhs => rw [hsplit]
          rw [show rest.takeWhile isWsJS ++ b :: tail =
            (rest.takeWhile isWsJS ++ [b]) ++ tail by simp]
          rw [stripCommas_copy (rest.takeWhile isWsJS ++ [b]) tail ?_]
          · simp
          · intro d hd2
            rcases List.mem_append.mp hd2 with hm | hm
            · have := List.mem_takeWhile_imp hm
              intro he
              rw [he] at this
              exact absurd this (by decide)
            · simp at hm
              rw [hm]
              exact hbc
        · intro w hw
          exact List.mem_takeWhile_imp hw
    · left
      rw [stripCommas_cons, if_neg hc]
      rfl

/-- If the head is not a word character, `startsWordColon` is false. -/
theorem startsWordColon_false (r : List Char)
    (h : ∀ c, r.head? = some c → isWord c = false) : startsWordColon r = false := by
  cases r with
  | nil => rfl
  | cons a t =>
    unfold startsWordColon
    rw [List.takeWhile_cons, h a rfl]
    simp

/-- A closing brace/bracket is not a key-prefix character. -/
theorem close_not_keyPre (b : Char) (hb : b = rbrace ∨ b = ']') : isKeyPre b = false := by
  rcases hb with h1 | h1 <;> (rw [h1]; decide)

/-- A closing brace/bracket is not a word character. -/
theorem close_not_word (b : Char) (hb : b = rbrace ∨ b = ']') : isWord b = false := by
  rcases hb with h1 | h1 <;> (rw [h1]; decide)

/-- `qkGo false` preserves the head character. -/
theorem qkGo_false_head (l : List Char) : (qkGo false l).head? = l.head? := by
  cases l with
  | nil => rfl
  | cons c rest =>
    rw [qkGo_false_cons]
    by_cases hc : isKeyPre c && startsWordColon rest <;> simp [hc]

/-- `qkGo false` copies a whitespace prefix followed by a closing bracket. -/
theorem qkGo_ws_close (ws : List Char) (b : Char) (t : List Char)
    (hws : ∀ w ∈ ws, isWsJS w = true) (hb : b = rbrace ∨ b = ']') :
    qkGo false (ws ++ b :: t) = ws ++ b :: qkGo false t := by
  induction ws with
  | nil =>
    simp only [List.nil_append]
    rw [qkGo_false_cons, if_neg (by simp [close_not_keyPre b hb])]
  | cons w ws2 ih =>
    have hw := hws w (List.mem_cons_self _ _)
    simp only [List.cons_append]
    rw [qkGo_false_cons, if_neg ?_]
    · rw [ih (fun c hc => hws c (List.mem_cons_of_mem _ hc))]
    · rw [startsWordColon_false]
      · simp
      · intro c hc
        cases hw2 : ws2 with
        | nil =>
          rw [hw2] at hc
          simp at hc
          rw [← hc]
          exact close_not_word b hb
        | cons a t2 =>
          rw [hw2] at hc
          simp at hc
          rw [← hc]
          apply ws_not_word a
          apply hws
          rw [hw2]
          exact List.mem_cons_of_mem _ (List.mem_cons_self _ _)

/-! ### Where parsing must fail -/

/-- A character that starts no JSON value makes `parseGo` fail. -/
theorem parseGo_value_none (fuel : Nat) (c : Char) (r : List Char)
    (h1 : c ≠ lbrace) (h2 : c ≠ '[') (h3 : c ≠ '"') (h4 : c ≠ 't') (h5 : c ≠ 'f')
    (h6 : c ≠ 'n') (h7 : ¬ (c = '-' ∨ isDigitC c = true)) :
    parseGo fuel (PReq.value (c :: r)) = none := by
  cases fuel with
  | zero => rfl
  | succ fuel =>
    show (if c = lbrace then _ else if c = '[' then _ else if c = '"' then _
      else if c = 't' then _ else if c = 'f' then _ else if c = 'n' then _
      else if c = '-' ∨ isDigitC c then parseNum (c :: r) else none) = none
    rw [if_neg h1, if_neg h2, if_neg h3, if_neg h4, if_neg h5, if_neg h6, if_neg h7]

/-- The empty input makes `parseGo` fail. -/
theorem parseGo_value_nil (fuel : Nat) : parseGo fuel (PReq.value []) = none := by
  cases fuel <;> rfl

/-- A closing brace or bracket starts no JSON value. -/
theorem parseGo_value_close (fuel : Nat) (b : Char) (r : List Char)
    (hb : b = rbrace ∨ b = ']') : parseGo fuel (PReq.value (b :: r)) = none := by
  rcases hb with h | h <;>
    (rw [h]; exact parseGo_value_none fuel _ r (by decide) (by decide) (by decide)
      (by decide) (by decide) (by decide) (by decide))

/-- JavaScript-whitespace prefix followed by a closing brace/bracket is
never valid JSON. -/
theorem parse_ws_close (ws : List Char) (b : Char) (t : List Char)
    (hws : ∀ c ∈ ws, isWsJS c = true) (hb : b = rbrace ∨ b = ']') :
    parse ⟨ws ++ b :: t⟩ = none := by
  unfold parse
  rw [show (String.mk (ws ++ b :: t)).data = ws ++ b :: t from rfl]
  suffices h : ∀ fuel, parseGo fuel (PReq.value (skipWs (ws ++ b :: t))) = none by
    rw [h]
  intro fuel
  induction ws with
  | nil =>
    simp only [List.nil_append]
    unfold skipWs
    rw [List.dropWhile_cons_of_neg ?_]
    · exact parseGo_value_close fuel b t hb
    · rcases hb with h | h <;> (rw [h]; decide)
  | cons w ws2 ih =>
    have hw := hws w (List.mem_cons_self _ _)
    by_cases hj : isJsonWs w
    · simp only [List.cons_append]
      unfold skipWs
      rw [List.dropWhile_cons_of_pos hj]
      exact ih (fun c hc => hws c (List.mem_cons_of_mem _ hc))
    · simp only [List.cons_append]
      unfold skipWs
      rw [List.dropWhile_cons_of_neg hj]
      have hv : w = '\x0b' ∨ w = '\x0c' := by
        simp only [isWsJS, Bool.or_eq_true, decide_eq_true_eq] at hw
        have hj2 : ¬ (w = ' ' ∨ w = '\t' ∨ w = '\n' ∨ w = '\x0d') := by
          intro hc
          apply hj
          simp only [isJsonWs, Bool.or_eq_true, decide_eq_true_eq]
          tauto
        tauto
      rcases hv with h | h <;>
        (rw [h]; exact parseGo_value_none fuel _ _ (by decide) (by decide) (by decide)
          (by decide) (by decide) (by decide) (by decide))

/-! ### Idempotence of the bare-key quoting pass -/

/-- A word character is not a colon (inequality form). -/
theorem word_ne_colon (c : Char) (h : isWord c = true) : c ≠ ':' := by
  intro he
  rw [he] at h
  exact absurd h (by decide)

/-- `takeWhile` over an all-true prefix. -/
theorem takeWhile_append_all (p : Char → Bool) (w X : List Char)
    (h : ∀ c ∈ w, p c = true) : (w ++ X).takeWhile p = w ++ X.takeWhile p := by
  induction w with
  | nil => rfl
  | cons a w2 ih =>
    simp only [List.cons_append, List.takeWhile_cons, h a (List.mem_cons_self _ _)]
    rw [ih (fun c hc => h c (List.mem_cons_of_mem _ hc))]
    simp

/-- `dropWhile` over an all-true prefix. -/
theorem dropWhile_append_all (p : Char → Bool) (w X : List Char)
    (h : ∀ c ∈ w, p c = true) : (w ++ X).dropWhile p = X.dropWhile p := by
  induction w with
  | nil => rfl
  | cons a w2 ih =>
    simp only [List.cons_append, List.dropWhile_cons_of_pos (h a (List.mem_cons_self _ _))]
    exact ih (fun c hc => h c (List.mem_cons_of_mem _ hc))

/-- `takeWhile` of a list whose head fails the predicate. -/
theorem takeWhile_nil_of_head (p : Char → Bool) (X : List Char)
    (h : ∀ c, X.head? = some c → p c = false) : X.takeWhile p = [] := by
  cases X with
  | nil => rfl
  | cons a t => simp [List.takeWhile_cons, h a rfl]

/-- Decomposition provided by `startsWordColon`. -/
theorem startsWC_decomp (rest : List Char) (h : startsWordColon rest = true) :
    ∃ w t, rest = w ++ ':' :: t ∧ w ≠ [] ∧ ∀ c ∈ w, isWord c = true := by
  unfold startsWordColon at h
  rw [Bool.and_eq_true] at h
  obtain ⟨h1, h2⟩ := h
  cases hd : rest.dropWhile isWord with
  | nil => rw [hd] at h2; simp at h2
  | cons b t =>
    rw [hd] at h2
    have hb : b = ':' := by
      simp at h2
      exact h2
    refine ⟨rest.takeWhile isWord, t, ?_, by simpa using h1, ?_⟩
    · conv_lhs => rw [← List.takeWhile_append_dropWhile (p := isWord) (l := rest)]
      rw [hd, hb]
    · intro c hc
      exact List.mem_takeWhile_imp hc

/-- The `inRun` scanner over a word run ending at a colon. -/
theorem qkTrue_run (w t : List Char) (hw : ∀ c ∈ w, isWord c = true) :
    qkGo true (w ++ ':' :: t) = w ++ '"' :: ':' :: qkGo false t := by
  induction w with
  | nil =>
    simp only [List.nil_append]
    rw [qkGo_true_cons, if_pos rfl]
  | cons a w2 ih =>
    have ha := hw a (List.mem_cons_self _ _)
    simp only [List.cons_append]
    rw [qkGo_true_cons, if_neg (word_ne_colon a ha)]
    rw [ih (fun c hc => hw c (List.mem_cons_of_mem _ hc))]

/-- The scanner copies a word run in the default state. -/
theorem qkFalse_copy_words (w m : List Char) (hw : ∀ c ∈ w, isWord c = true) :
    qkGo false (w ++ m) = w ++ qkGo false m := by
  induction w with
  | nil => rfl
  | cons a w2 ih =>
    have ha := hw a (List.mem_cons_self _ _)
    simp only [List.cons_append]
    rw [qkGo_false_cons, if_neg (by simp [word_not_keyPre a ha])]
    rw [ih (fun c hc => hw c (List.mem_cons_of_mem _ hc))]

/-- `qkGo false` does not change whether the input starts with a bare key
pattern. -/
theorem startsWC_qk (m : List Char) :
    startsWordColon (qkGo false m) = startsWordColon m := by
  have hd : ∀ c, (m.dropWhile isWord).head? = some c → isWord c = false :=
    fun c hc => dropWhile_head isWord m c hc
  have hsplit : m = m.takeWhile isWord ++ m.dropWhile isWord :=
    (List.takeWhile_append_dropWhile _ _).symm
  have hall : ∀ c ∈ m.takeWhile isWord, isWord c = true :=
    fun c hc => List.mem_takeWhile_imp hc
  have hqk : qkGo false m = m.takeWhile isWord ++ qkGo false (m.dropWhile isWord) := by
    conv_lhs => rw [hsplit]
    exact qkFalse_copy_words _ _ hall
  have hdhead : ∀ c, (qkGo false (m.dropWhile isWord)).head? = some c → isWord c = false := by
    intro c hc
    rw [qkGo_false_head] at hc
    exact hd c hc
  rw [hqk]
  unfold startsWordColon
  rw [takeWhile_append_all _ _ _ hall, takeWhile_nil_of_head _ _ hdhead,
    dropWhile_append_all _ _ _ hall, dropWhile_fix _ _ hdhead]
  conv_rhs => rw [hsplit]
  rw [takeWhile_append_all _ _ _ hall, takeWhile_nil_of_head _ _ hd,
    dropWhile_append_all _ _ _ hall, dropWhile_fix _ _ hd]
  rw [qkGo_false_head]

/-- The bare-key quoting pass is idempotent. -/
theorem qk_idem : ∀ l : List Char, qkGo false (qkGo false l) = qkGo false l
  | [] => rfl
  | c :: rest => by
    by_cases hc : isKeyPre c && startsWordColon rest
    · have hsw : startsWordColon rest = true := by
        have hc2 := hc
        rw [Bool.and_eq_true] at hc2
        exact hc2.2
      obtain ⟨w, t, hrest, hwne, hwall⟩ := startsWC_decomp rest hsw
      have hlt : t.length < rest.length := by
        rw [hrest]
        rw [List.length_append, List.length_cons]
        omega
      rw [qkGo_false_cons, if_pos hc, hrest, qkTrue_run w t hwall]
      rw [qkGo_false_cons, if_neg ?_]
      · rw [qkGo_false_cons, if_neg (by simp [show isKeyPre '"' = false by decide])]
        rw [qkFalse_copy_words w ('"' :: ':' :: qkGo false t) hwall]
        rw [qkGo_false_cons, if_neg (by simp [show isKeyPre '"' = false by decide])]
        rw [qkGo_false_cons, if_neg (by simp [show isKeyPre ':' = false by decide])]
        rw [qk_idem t]
      · rw [startsWordColon_false]
        · simp
        · intro d hd
          simp at hd
          rw [← hd]
          decide
    · rw [qkGo_false_cons, if_neg hc]
      rw [qkGo_false_cons, if_neg (by rw [startsWC_qk rest]; exact hc)]
      rw [qk_idem rest]
termination_by l => l.length
decreasing_by
  · simp only [List.length_cons]
    omega
  · simp only [List.length_cons]
    omega

/-! ### The C4 theorems -/

/-- The empty string never parses. -/
theorem parse_nil : parse (String.mk []) = none := rfl

/-- C4 counterexample: on the already-valid JSON string literal `"a,,]"`,
one repair pass strips a comma inside the string literal (so repairing valid
JSON does NOT return it unchanged), the repaired form still parses, and a
second repair pass strips another comma: `repair(repair(x)) ≠ repair(x)`. -/
theorem c4_counterexample :
    parse "\"a,,]\"" = some (Json.str "a,,]") ∧
    attemptJsonRepair "\"a,,]\"" ≠ "\"a,,]\"" ∧
    (parse (attemptJsonRepair "\"a,,]\"")).isSome = true ∧
    attemptJsonRepair (attemptJsonRepair "\"a,,]\"") ≠ attemptJsonRepair "\"a,,]\"" :=
  ⟨rfl, by decide, rfl, by decide⟩

/-- C4 amended: `safeParseJson` never mutates an input that already parses
directly (it returns the direct parse, never invoking repair); and the
repair pass is idempotent on every input whose repaired form parses AND is
itself free of comma-before-closing-bracket residue (the counterexample
shows such residue — which can only survive inside string literals — breaks
idempotence). -/
theorem c4_repair_idempotence (x : String)
    (h1 : (parse (attemptJsonRepair x)).isSome = true)
    (h2 : stripCommas (attemptJsonRepair x).data = (attemptJsonRepair x).data) :
    attemptJsonRepair (attemptJsonRepair x) = attemptJsonRepair x ∧
    ∀ (s : String) (v : Json), parse s = some v → safeParseJson s = Except.ok v := by
  refine ⟨?_, safeParse_of_parse⟩
  set z := balSq (balCurly (trimJS x.data)) with hz
  set y := qkGo false (stripCommas z) with hy
  have hxy : attemptJsonRepair x = String.mk y := rfl
  have hsc : stripCommas y = y := h2
  have h1y : (parse (String.mk y)).isSome = true := by
    rw [← hxy]
    exact h1
  have hyne : y ≠ [] := by
    intro he
    rw [he] at h1y
    rw [parse_nil] at h1y
    simp at h1y
  have hhead : ∀ c, y.head? = some c → isWsJS c = false := by
    rcases stripCommas_head z with hhd | ⟨ws, b, t, hshape, hwsall, hb⟩
    · intro c hcy
      rw [hy, qkGo_false_head, hhd] at hcy
      have hztrim : z.head? = some c → isWsJS c = false := by
        intro hzc
        cases htr : trimJS x.data with
        | nil =>
          rw [hz, htr] at hzc
          simp [balCurly, balSq] at hzc
        | cons hd tl =>
          have : z.head? = some hd := by
            rw [hz]
            unfold balSq balCurly
            rw [htr]
            simp
          rw [this] at hzc
          have hhd2 : hd = c := by
            simpa using hzc
          rw [← hhd2]
          exact trimJS_head x.data hd (by rw [htr]; rfl)
      exact hztrim hcy
    · exfalso
      have hyshape : y = ws ++ b :: qkGo false t := by
        rw [hy, hshape]
        exact qkGo_ws_close ws b t hwsall hb
      have : parse (String.mk y) = none := by
        rw [hyshape]
        exact parse_ws_close ws b (qkGo false t) hwsall hb
      rw [this] at h1y
      simp at h1y
  have hends : endsOk y := by
    apply endsOk_qkGo
    apply endsOk_stripCommas
    rw [hz]
    unfold balSq
    apply endsOk_append
    · unfold balCurly
      apply endsOk_append
      · exact fun c hc => trimJS_last x.data c hc
      · intro c hc
        rw [List.eq_of_mem_replicate hc]
        decide
    · intro c hc
      rw [List.eq_of_mem_replicate hc]
      decide
  have htrim : trimJS y = y := trimJS_fix y hhead hends
  have hcb : y.count lbrace ≤ y.count rbrace := by
    rw [hy, qkGo_count lbrace (by decide) false, qkGo_count rbrace (by decide) false,
      stripCommas_count lbrace (by decide), stripCommas_count rbrace (by decide), hz,
      balSq_count lbrace (by decide), balSq_count rbrace (by decide)]
    exact balCurly_balanced (trimJS x.data)
  have hsb : y.count '[' ≤ y.count ']' := by
    rw [hy, qkGo_count '[' (by decide) false, qkGo_count ']' (by decide) false,
      stripCommas_count '[' (by decide), stripCommas_count ']' (by decide), hz]
    exact balSq_balanced (balCurly (trimJS x.data))
  show attemptJsonRepair (String.mk y) = String.mk y
  unfold attemptJsonRepair
  rw [show (String.mk y).data = y from rfl]
  rw [htrim, balCurly_fix y hcb, balSq_fix y hsb, hsc]
  show String.mk (qkGo false y) = String.mk y
  rw [hy, qk_idem (stripCommas z)]

/-- C4 amended witness: `\x7b"a":1,` repairs to `\x7b"a":1\x7d`, which
parses, has no comma residue, and is a fixed point of a second repair. -/
theorem c4_repair_idempotence_witness :
    (parse (attemptJsonRepair "\x7b\"a\":1,")).isSome = true ∧
    stripCommas (attemptJsonRepair "\x7b\"a\":1,").data = (attemptJsonRepair "\x7b\"a\":1,").data ∧
    attemptJsonRepair (attemptJsonRepair "\x7b\"a\":1,") = attemptJsonRepair "\x7b\"a\":1," ∧
    safeParseJson "1" = Except.ok (Json.num "1") :=
  ⟨rfl, rfl, (c4_repair_idempotence "\x7b\"a\":1," rfl rfl).1,
    (c4_repair_idempotence "\x7b\"a\":1," rfl rfl).2 "1" (Json.num "1") rfl⟩
